import Mathlib

/-!
Verification of the PacoConfigFilter repository.

The repository contains two near-identical Python modules, `main.py` and
`nokia/paco/config_filter.py`, each a pipeline that strips a JSON switch
configuration down to a base bootstrap subset.  This file gives a shallow
embedding of the data model (JSON values as an inductive type, Python
dictionaries as insertion-ordered association lists) and of every pipeline
operation, and proves or refutes the frozen claims about them.

Conventions of the embedding:
* Python exceptions (KeyError, TypeError, ValueError, IndexError,
  UnboundLocalError) abort the whole run, so every fallible operation
  returns Option; a None result means the Python code raises.
* Iterating a value that is not a JSON array is modelled as failure.  In
  Python a dict or string would be iterated element-wise and then fail on
  the element access inside the loop body, except for the degenerate empty
  dict or empty string; no claim depends on that corner.
* CPython set iteration order is a deterministic (per process) but
  hash-dependent enumeration of the distinct elements.  We model it as
  first-insertion order; every theorem below is either independent of the
  enumeration order or only needs that the two runs of one process agree.
* deepcopy of a JSON tree is the identity on values.
-/

namespace Paco

/-! ## Characters and substring containment (the Python `in` operator) -/

/-- Test whether the second list is an initial segment of the first list. -/
def leadMatch : List Char → List Char → Bool
  | _, [] => true
  | [], _ :: _ => false
  | a :: as, b :: bs => a == b && leadMatch as bs

/-- Test whether `sub` occurs as a contiguous block inside `hay`. -/
def subMatch (sub : List Char) : List Char → Bool
  | [] => leadMatch [] sub
  | c :: rest => leadMatch (c :: rest) sub || subMatch sub rest

/-- Python substring containment `sub in hay` for strings. -/
def strHas (hay sub : String) : Bool := subMatch sub.data hay.data

/-! ## Python int() on strings -/

/-- Numeric value of a decimal digit character. -/
def digitVal (c : Char) : Nat := c.toNat - 48

/-- Consume the remaining digits of a decimal literal, allowing a single
underscore between two digits as Python does. -/
def digitsCore (acc : Nat) : List Char → Option Nat
  | [] => some acc
  | c :: rest =>
      if c.isDigit then digitsCore (acc * 10 + digitVal c) rest
      else if c = '_' then
        match rest with
        | c2 :: rest2 =>
            if c2.isDigit then digitsCore (acc * 10 + digitVal c2) rest2 else none
        | [] => none
      else none

/-- Parse a nonempty unsigned decimal literal with Python underscore rules. -/
def parseUIntL : List Char → Option Nat
  | [] => none
  | c :: rest => if c.isDigit then digitsCore (digitVal c) rest else none

/-- Remove leading and trailing whitespace, as Python str.strip does. -/
def stripWs (l : List Char) : List Char :=
  ((l.dropWhile Char.isWhitespace).reverse.dropWhile Char.isWhitespace).reverse

/-- Model of CPython int(s) for base ten and ASCII input: optional
whitespace, optional single sign, then a decimal literal. -/
def pyIntL (l : List Char) : Option Int :=
  match stripWs l with
  | [] => none
  | c :: rest =>
      if c = '+' then (parseUIntL rest).map Int.ofNat
      else if c = '-' then (parseUIntL rest).map (fun n => -(n : Int))
      else (parseUIntL (c :: rest)).map Int.ofNat

/-- Python int() applied to a string. -/
def pyInt (s : String) : Option Int := pyIntL s.data

/-! ## Python str() on integers -/

/-- Decimal digits of a positive number, fuelled to stay structural. -/
def natDigsAux : Nat → Nat → List Char
  | 0, _ => []
  | fuel + 1, n =>
      if n = 0 then [] else natDigsAux fuel (n / 10) ++ [Char.ofNat (48 + n % 10)]

/-- Decimal representation of a natural number, as Python str produces. -/
def natDigs (n : Nat) : List Char := if n = 0 then ['0'] else natDigsAux n n

/-- Decimal representation of an integer, as Python str produces. -/
def intDigs (n : Int) : List Char :=
  if n < 0 then '-' :: natDigs n.natAbs else natDigs n.toNat

/-! ## Splitting on the dot, Python str.split(".") -/

/-- Split a character list at every dot; always returns a nonempty list. -/
def splitDotL : List Char → List (List Char)
  | [] => [[]]
  | c :: rest =>
      if c = '.' then [] :: splitDotL rest
      else
        match splitDotL rest with
        | [] => [[c]]
        | p :: ps => (c :: p) :: ps

/-! ## The Interface helper class -/

/-- Embedding of the Interface class of both modules: an interface name
together with a unit (subinterface index) number. -/
structure Interface where
  interface_name : String
  unit : Int
deriving DecidableEq, Repr

/-- Embedding of Interface.new_interface_from_string: split on dots, take
the first part as the name and int() of the second part as the unit.
Parts beyond the second are silently ignored.  A missing second part
(IndexError) or an unparseable unit (ValueError) aborts. -/
def new_interface_from_string (s : String) : Option Interface :=
  match splitDotL s.data with
  | p0 :: p1 :: _ => (pyIntL p1).map (fun n => ⟨⟨p0⟩, n⟩)
  | _ => none

/-- Embedding of Interface.config_rep: the f-string name dot unit. -/
def config_rep (i : Interface) : String :=
  ⟨i.interface_name.data ++ '.' :: intDigs i.unit⟩

/-! ## JSON values and Python dictionaries

A loaded configuration document is a JSON tree.  json.load keeps object
keys in insertion order (Python dicts are ordered), so objects are
association lists.  The documents of this repository contain no floating
point numbers, so numeric leaves are integers. -/

/-- A JSON value as produced by json.load. -/
inductive JValue where
  | jnull : JValue
  | jbool : Bool → JValue
  | jint : Int → JValue
  | jstr : String → JValue
  | jarr : List JValue → JValue
  | jobj : List (String × JValue) → JValue

/-- Dictionary lookup d[k]; None models a KeyError. -/
def getKey : List (String × JValue) → String → Option JValue
  | [], _ => none
  | (k, v) :: rest, key => if k = key then some v else getKey rest key

/-- Dictionary assignment d[k] = v: an existing key keeps its position,
a new key is appended at the end, as Python dicts do. -/
def setKey : List (String × JValue) → String → JValue → List (String × JValue)
  | [], key, v => [(key, v)]
  | (k, w) :: rest, key, v =>
      if k = key then (key, v) :: rest else (k, w) :: setKey rest key v

/-- View a value as a JSON array; anything else fails (iteration of
non-list values is out of model, see the file comment). -/
def asArr : JValue → Option (List JValue)
  | .jarr xs => some xs
  | _ => none

/-- View a value as a string; anything else fails. -/
def asStr : JValue → Option String
  | .jstr s => some s
  | _ => none

/-- View a value as an object; anything else fails. -/
def asObj : JValue → Option (List (String × JValue))
  | .jobj o => some o
  | _ => none

/-- Field access v[k] on a value expected to be an object. -/
def getField (v : JValue) (k : String) : Option JValue :=
  (asObj v).bind (fun o => getKey o k)

/-- Python equality between a JSON value and an int.  Python bools are
ints, so True equals 1 and False equals 0; other types compare unequal
without an error. -/
def pyEqInt (v : JValue) (n : Int) : Bool :=
  match v with
  | .jint m => m = n
  | .jbool b => (if b then (1 : Int) else 0) = n
  | _ => false

/-- Python equality between a JSON value and a string: only a string can
be equal, other types compare unequal without an error. -/
def pyEqStr (v : JValue) (t : String) : Bool :=
  match v with
  | .jstr s => s = t
  | _ => false

/-! ## Option-monad list combinators

Private combinators with definitional unfolding lemmas, mirroring the
Python for loops of the source. -/

/-- Map a fallible function over a list, failing on the first failure. -/
def optMapM (f : α → Option β) : List α → Option (List β)
  | [] => some []
  | a :: l => (f a).bind fun b => (optMapM f l).map fun bs => b :: bs

/-- Fold a fallible step over a list from the left. -/
def optFoldlM (f : σ → α → Option σ) : σ → List α → Option σ
  | s, [] => some s
  | s, a :: l => (f s a).bind fun t => optFoldlM f t l

/-! ## drop_nis

Both modules share this function verbatim; only the module constant
keep_nis differs.  The inner loop has no break, so one entry is appended
once per matching substring. -/

/-- Keep list of main.py. -/
def keep_nis_main : List String := ["provisioning", "infrastructure", "default"]

/-- Keep list of nokia/paco/config_filter.py. -/
def keep_nis_cf : List String := ["infrastructure", "default"]

/-- Process one network-instance entry of the drop_nis loop: the entry is
appended to the result once for every keep substring contained in its
name.  Reading the name fails if the key is missing or not a string. -/
def dropNisEntry (keep : List String) (entry : JValue) : Option (List JValue) :=
  (getField entry "name").bind fun nv =>
    (asStr nv).map fun name =>
      (keep.filter (fun sub => strHas name sub)).map (fun _ => entry)

/-- Embedding of drop_nis: rebuild the network-instance list from the
per-entry blocks and store it back under the same key. -/
def drop_nis (keep : List String) (doc : JValue) : Option JValue :=
  (asObj doc).bind fun o =>
    (getKey o "network-instance").bind fun niv =>
      (asArr niv).bind fun entries =>
        (optMapM (dropNisEntry keep) entries).map fun blocks =>
          .jobj (setKey o "network-instance" (.jarr blocks.flatten))

/-! ## Deducing the in-use interfaces

Both modules collect the raw interface reference strings of the remaining
network-instances into a set and then parse them; main.py additionally
keeps only raw strings containing the marker irb.  CPython iterates the
set in a hash-dependent per-process order over the distinct strings; we
enumerate the distinct strings in first-insertion order. -/

/-- Distinct elements of a list in first-occurrence order. -/
def dedupFirst (l : List String) : List String :=
  l.foldl (fun acc x => if x ∈ acc then acc else acc ++ [x]) []

/-- Collect the raw interface name strings referenced by the
network-instances, in scan order with duplicates. -/
def collectRefNames (doc : JValue) : Option (List String) :=
  (asObj doc).bind fun o =>
    (getKey o "network-instance").bind fun niv =>
      (asArr niv).bind fun entries =>
        (optMapM (fun e =>
          (getField e "interface").bind fun iv =>
            (asArr iv).bind fun ifs =>
              optMapM (fun itf => (getField itf "name").bind asStr) ifs) entries).map
          List.flatten

/-- Embedding of deduce_in_use_interfaces of config_filter.py: parse every
distinct collected string. -/
def deduce_cf (doc : JValue) : Option (List Interface) :=
  (collectRefNames doc).bind fun raws =>
    optMapM new_interface_from_string (dedupFirst raws)

/-- Embedding of deduce_base_irb_interfaces of main.py: parse every
distinct collected string whose raw form contains irb. -/
def deduce_main (doc : JValue) : Option (List Interface) :=
  (collectRefNames doc).bind fun raws =>
    optMapM new_interface_from_string
      ((dedupFirst raws).filter (fun x => strHas x "irb"))

/-! ## remove_bfd_interfaces

Shared verbatim by both modules.  The inner loop over the kept interfaces
has no break, so a BFD entry is appended once per interface whose
canonical representation equals its id. -/

/-- Process one BFD subinterface entry: appended once per matching
in-use interface, in the order of the in-use list. -/
def bfdEntryMatches (irbs : List Interface) (entry : JValue) : Option (List JValue) :=
  (getField entry "id").map fun idv =>
    (irbs.filter (fun r => pyEqStr idv (config_rep r))).map (fun _ => entry)

/-- Embedding of remove_bfd_interfaces: rebuild the BFD subinterface list
and store it back; the enclosing bfd object is mutated in place, so its
other keys keep their positions. -/
def remove_bfd (irbs : List Interface) (doc : JValue) : Option JValue :=
  (asObj doc).bind fun o =>
    (getKey o "bfd").bind fun bfdv =>
      (asObj bfdv).bind fun bo =>
        (getKey bo "subinterface").bind fun sv =>
          (asArr sv).bind fun entries =>
            (optMapM (bfdEntryMatches irbs) entries).map fun blocks =>
              .jobj (setKey o "bfd" (.jobj (setKey bo "subinterface" (.jarr blocks.flatten))))

/-! ## remove_interfaces, strict variant of main.py

For every in-use interface, in order, and then for every top-level
interface record, in document order, whose name equals the in-use name, a
deep copy with only the unit-matching subinterfaces is appended. -/

/-- Filter a subinterface list down to the entries whose index equals the
given unit.  The index of every scanned entry is read, so a missing index
key aborts even on entries that would be dropped. -/
def filtIdx (u : Int) : List JValue → Option (List JValue)
  | [] => some []
  | s :: rest =>
      (getField s "index").bind fun iv =>
        (filtIdx u rest).map fun tail =>
          if pyEqInt iv u then s :: tail else tail

/-- Deep copy an interface record and replace its subinterface list.  The
record must be an object; assignment into a copied non-object raises. -/
def setSubifs (entry : JValue) (subs : List JValue) : Option JValue :=
  (asObj entry).map fun o => .jobj (setKey o "subinterface" (.jarr subs))

/-- Build the strict-mode record for one matching entry and one in-use
interface: deep copy, clear the subinterface list, append the
unit-matching subinterfaces. -/
def strictRecord (entry : JValue) (r : Interface) : Option JValue :=
  (getField entry "subinterface").bind fun sv =>
    (asArr sv).bind fun subs =>
      (filtIdx r.unit subs).bind fun kept =>
        setSubifs entry kept

/-- Body of the strict inner loop for one entry: on a name match, build
the record and append it to the accumulator. -/
def strictStepEntry (r : Interface) (acc : List JValue) (e : JValue) :
    Option (List JValue) :=
  (getField e "name").bind fun nv =>
    if pyEqStr nv r.interface_name then
      (strictRecord e r).map fun rec => acc ++ [rec]
    else some acc

/-- One pass of the strict outer loop body: extend the accumulator with
the records of one in-use interface over the whole entry list. -/
def strictStep (entries : List JValue) (acc : List JValue) (r : Interface) :
    Option (List JValue) :=
  optFoldlM (strictStepEntry r) acc entries

/-- Embedding of remove_interfaces of main.py (strict variant). -/
def remove_interfaces_main (refs : List Interface) (doc : JValue) : Option JValue :=
  (asObj doc).bind fun o =>
    (getKey o "interface").bind fun iv =>
      (asArr iv).bind fun entries =>
        (optFoldlM (strictStep entries) [] refs).map fun recs =>
          .jobj (setKey o "interface" (.jarr recs))

/-! ## remove_interfaces, consolidating variant of config_filter.py

The result dict is keyed by interface name.  The loop variable interf of
the Python source is rebound only inside the two record-creating branches;
when an entry whose name is already a key is processed, appends go to
whatever record interf still points at.  Every assignment to interf is
immediately followed by storing it under the name of the current entry,
and the only overwrite of a stored record rebinds interf at the same time,
so interf always denotes the record stored under the key tracked in cur
below.  cur = none models interf unbound (appending would raise
UnboundLocalError). -/

/-- Loop state of the consolidating variant: the insertion-ordered result
dict and the key whose record the variable interf denotes. -/
structure CState where
  result : List (String × JValue)
  cur : Option String

/-- Append one subinterface to the record the variable interf points at. -/
def appendSubif (st : CState) (subif : JValue) : Option CState :=
  st.cur.bind fun key =>
    (getKey st.result key).bind fun rec =>
      (asObj rec).bind fun ro =>
        (getKey ro "subinterface").bind fun sv =>
          (asArr sv).map fun sl =>
            ⟨setKey st.result key (.jobj (setKey ro "subinterface" (.jarr (sl ++ [subif])))),
             st.cur⟩

/-- Body of the subinterface loop: read the index of every scanned
subinterface and append the unit-matching ones to the record the
variable interf points at. -/
def cfSubifStep (u : Int) (st2 : CState) (subif : JValue) : Option CState :=
  (getField subif "index").bind fun iv =>
    if pyEqInt iv u then appendSubif st2 subif else some st2

/-- Body of the inner loop over the in-use interfaces for one entry whose
name is known: on a name match, lazily create the record, then append the
unit-matching subinterfaces of the entry to the record interf points at. -/
def cfRefStep (entry : JValue) (name : String) (st : CState) (r : Interface) :
    Option CState :=
  if name = r.interface_name then
    (if (getKey st.result name).isSome then some st
     else (setSubifs entry []).map fun rec0 =>
       (⟨setKey st.result name rec0, some name⟩ : CState)).bind fun st1 =>
      (getField entry "subinterface").bind fun sv =>
        (asArr sv).bind fun sl =>
          optFoldlM (cfSubifStep r.unit) st1 sl
  else some st

/-- Process one interface entry of the consolidating loop: ethernet names
are stored (or overwritten) immediately with a cleared subinterface list,
then the in-use interfaces are scanned. -/
def cfEntryStep (refs : List Interface) (st : CState) (entry : JValue) :
    Option CState :=
  (getField entry "name").bind fun nv =>
    (asStr nv).bind fun name =>
      (if strHas name "ethernet" then
        (setSubifs entry []).map fun rec0 =>
          (⟨setKey st.result name rec0, some name⟩ : CState)
       else some st).bind fun st1 =>
        optFoldlM (cfRefStep entry name) st1 refs

/-- Embedding of remove_interfaces of config_filter.py (consolidating
variant): run the loop and store the dict values, in insertion order, as
the new interface list. -/
def remove_interfaces_cf (refs : List Interface) (doc : JValue) : Option JValue :=
  (asObj doc).bind fun o =>
    (getKey o "interface").bind fun iv =>
      (asArr iv).bind fun entries =>
        (optFoldlM (cfEntryStep refs) ⟨[], none⟩ entries).map fun st =>
          .jobj (setKey o "interface" (.jarr (st.result.map Prod.snd)))

/-! ## finish: the emitter

finish serializes the document with json.dump, indent two spaces, either
into the named file or to standard output.  The embedding keeps the
document abstract and records the destination; what matters for the
claims is the file open mode: main.py opens with mode rw, which the
Python open built-in rejects with a ValueError before anything is
written, while config_filter.py opens with mode w+, which truncates the
existing file and writes. -/

/-- Where the serialized document went. -/
inductive EmitResult where
  | toFile : String → JValue → EmitResult
  | toStdout : JValue → EmitResult

/-- Validity check of a Python open mode string: every character must be
one of x r w a b t +, no character may repeat, at most one of b and t,
and exactly one of the create, read, write and append modes. -/
def modeOk (m : String) : Bool :=
  let cs := m.data
  cs.all (fun c => c ∈ ['x', 'r', 'w', 'a', 'b', 't', '+']) &&
  cs.Nodup &&
  !(('b' ∈ cs) && ('t' ∈ cs)) &&
  (cs.count 'x' + cs.count 'r' + cs.count 'w' + cs.count 'a' = 1)

/-- Embedding of finish with an explicit open mode for the file case. -/
def finishWith (mode : String) (doc : JValue) (o : Option String) : Option EmitResult :=
  match o with
  | some path => if modeOk mode then some (.toFile path doc) else none
  | none => some (.toStdout doc)

/-- Embedding of finish of main.py, which opens the output with mode rw. -/
def finish_main (doc : JValue) (o : Option String) : Option EmitResult :=
  finishWith "rw" doc o

/-- Embedding of finish of config_filter.py, which opens with mode w+. -/
def finish_cf (doc : JValue) (o : Option String) : Option EmitResult :=
  finishWith "w+" doc o

/-! ## The two pipelines (the in-memory part of process) -/

/-- The document transformation of process in config_filter.py. -/
def pipeline_cf (doc : JValue) : Option JValue :=
  (drop_nis keep_nis_cf doc).bind fun d1 =>
    (deduce_cf d1).bind fun refs =>
      (remove_bfd refs d1).bind fun d2 =>
        remove_interfaces_cf refs d2

/-- The document transformation of process in main.py. -/
def pipeline_main (doc : JValue) : Option JValue :=
  (drop_nis keep_nis_main doc).bind fun d1 =>
    (deduce_main d1).bind fun refs =>
      (remove_bfd refs d1).bind fun d2 =>
        remove_interfaces_main refs d2

/-! ## Basic lemmas about dictionaries -/

@[simp] theorem getKey_nil (k : String) : getKey [] k = none := rfl

theorem getKey_cons (k key : String) (v : JValue) (rest : List (String × JValue)) :
    getKey ((k, v) :: rest) key = if k = key then some v else getKey rest key := rfl

theorem setKey_cons (k key : String) (w v : JValue) (rest : List (String × JValue)) :
    setKey ((k, w) :: rest) key v =
      if k = key then (key, v) :: rest else (k, w) :: setKey rest key v := rfl

/-- Writing back the value a key already holds leaves the dict unchanged. -/
theorem setKey_same {o : List (String × JValue)} {k : String} {v : JValue}
    (h : getKey o k = some v) : setKey o k v = o := by
  induction o with
  | nil => simp [getKey] at h
  | cons kv rest ih =>
    obtain ⟨k0, v0⟩ := kv
    by_cases hk : k0 = k
    · subst hk
      simp [getKey] at h
      simp [setKey, h]
    · rw [getKey_cons] at h
      simp [hk] at h
      simp [setKey, hk, ih h]

/-- Reading the key just written returns the written value. -/
theorem getKey_setKey_self (o : List (String × JValue)) (k : String) (v : JValue) :
    getKey (setKey o k v) k = some v := by
  induction o with
  | nil => simp [setKey, getKey]
  | cons kv rest ih =>
    obtain ⟨k0, v0⟩ := kv
    by_cases hk : k0 = k
    · subst hk; simp [setKey, getKey]
    · simp [setKey, getKey, hk, ih]

/-- Writing one key does not change the value of any other key. -/
theorem getKey_setKey_ne (o : List (String × JValue)) {k k' : String} (v : JValue)
    (h : k ≠ k') : getKey (setKey o k v) k' = getKey o k' := by
  induction o with
  | nil => simp [setKey, getKey, h]
  | cons kv rest ih =>
    obtain ⟨k0, v0⟩ := kv
    by_cases hk : k0 = k
    · subst hk; simp [setKey, getKey, h]
    · simp [setKey, getKey, hk, ih]

/-- Overwriting an existing key keeps the key sequence of the dict. -/
theorem map_fst_setKey {o : List (String × JValue)} {k : String} {w : JValue}
    (h : getKey o k = some w) (v : JValue) :
    (setKey o k v).map Prod.fst = o.map Prod.fst := by
  induction o with
  | nil => simp [getKey] at h
  | cons kv rest ih =>
    obtain ⟨k0, v0⟩ := kv
    by_cases hk : k0 = k
    · subst hk; simp [setKey]
    · rw [getKey_cons] at h
      simp [hk] at h
      simp [setKey, hk, ih h]

/-- Setting an absent key appends it at the end of the dict. -/
theorem setKey_absent {o : List (String × JValue)} {k : String}
    (h : getKey o k = none) (v : JValue) : setKey o k v = o ++ [(k, v)] := by
  induction o with
  | nil => simp [setKey]
  | cons kv rest ih =>
    obtain ⟨k0, v0⟩ := kv
    rw [getKey_cons] at h
    by_cases hk : k0 = k
    · simp [hk] at h
    · simp [hk] at h
      simp [setKey, hk, ih h]

/-- Lookup distributes over append when the key misses the first part. -/
theorem getKey_append_right {o : List (String × JValue)} {k : String}
    (h : getKey o k = none) (o' : List (String × JValue)) :
    getKey (o ++ o') k = getKey o' k := by
  induction o with
  | nil => simp
  | cons kv rest ih =>
    obtain ⟨k0, v0⟩ := kv
    rw [getKey_cons] at h
    by_cases hk : k0 = k
    · simp [hk] at h
    · simp [hk] at h
      simp [getKey_cons, hk, ih h]

/-- Lookup in an appended dict prefers the first part when it hits. -/
theorem getKey_append_left {o : List (String × JValue)} {k : String} {v : JValue}
    (h : getKey o k = some v) (o' : List (String × JValue)) :
    getKey (o ++ o') k = some v := by
  induction o with
  | nil => simp [getKey] at h
  | cons kv rest ih =>
    obtain ⟨k0, v0⟩ := kv
    rw [getKey_cons] at h
    by_cases hk : k0 = k
    · simp [hk] at h ⊢
      simpa [getKey_cons, hk] using h
    · simp [hk] at h
      simp [getKey_cons, hk, ih h]

/-- Setting a key that misses the first part of an append rewrites only
the second part. -/
theorem setKey_append_right {o : List (String × JValue)} {k : String}
    (h : getKey o k = none) (o' : List (String × JValue)) (v : JValue) :
    setKey (o ++ o') k v = o ++ setKey o' k v := by
  induction o with
  | nil => simp
  | cons kv rest ih =>
    obtain ⟨k0, v0⟩ := kv
    rw [getKey_cons] at h
    by_cases hk : k0 = k
    · simp [hk] at h
    · simp [hk] at h
      simp [setKey_cons, hk, ih h]

/-! ## Basic lemmas about the Option combinators -/

@[simp] theorem optMapM_nil (f : α → Option β) : optMapM f [] = some [] := rfl

@[simp] theorem optMapM_cons (f : α → Option β) (a : α) (l : List α) :
    optMapM f (a :: l) =
      (f a).bind fun b => (optMapM f l).map fun bs => b :: bs := rfl

theorem optMapM_append (f : α → Option β) (l₁ l₂ : List α) :
    optMapM f (l₁ ++ l₂) =
      (optMapM f l₁).bind fun b₁ => (optMapM f l₂).map fun b₂ => b₁ ++ b₂ := by
  induction l₁ with
  | nil =>
    simp only [List.nil_append, optMapM_nil, Option.bind_some]
    cases optMapM f l₂ <;> simp
  | cons a l ih =>
    cases hfa : f a with
    | none => simp [hfa]
    | some b =>
      simp only [List.cons_append, optMapM_cons, hfa, Option.bind_some, ih]
      cases optMapM f l <;> cases optMapM f l₂ <;> simp

/-- Membership in a successful optMapM result. -/
theorem optMapM_mem {f : α → Option β} {l : List α} {ys : List β}
    (h : optMapM f l = some ys) {y : β} (hy : y ∈ ys) :
    ∃ a ∈ l, f a = some y := by
  induction l generalizing ys with
  | nil =>
    simp only [optMapM_nil, Option.some_inj] at h
    subst h; cases hy
  | cons a l ih =>
    simp only [optMapM_cons] at h
    cases hfa : f a with
    | none => simp [hfa] at h
    | some b =>
      rw [hfa] at h
      cases hml : optMapM f l with
      | none => simp [hml] at h
      | some bs =>
        rw [hml] at h
        simp at h
        subst h
        rcases hy with _ | hy'
        · exact ⟨a, List.mem_cons_self a l, hfa⟩
        · obtain ⟨a', ha', hfa'⟩ := ih hml (by assumption)
          exact ⟨a', List.mem_cons_of_mem a ha', hfa'⟩

/-- Lengths agree on a successful optMapM. -/
theorem optMapM_length {f : α → Option β} {l : List α} {ys : List β}
    (h : optMapM f l = some ys) : ys.length = l.length := by
  induction l generalizing ys with
  | nil => simp only [optMapM_nil, Option.some_inj] at h; subst h; rfl
  | cons a l ih =>
    simp only [optMapM_cons] at h
    cases hfa : f a with
    | none => simp [hfa] at h
    | some b =>
      rw [hfa] at h
      cases hml : optMapM f l with
      | none => simp [hml] at h
      | some bs =>
        rw [hml] at h
        simp at h
        subst h
        simp [ih hml]

@[simp] theorem optFoldlM_nil (f : σ → α → Option σ) (s : σ) :
    optFoldlM f s [] = some s := rfl

@[simp] theorem optFoldlM_cons (f : σ → α → Option σ) (s : σ) (a : α) (l : List α) :
    optFoldlM f s (a :: l) = (f s a).bind fun t => optFoldlM f t l := rfl

theorem optFoldlM_append (f : σ → α → Option σ) (s : σ) (l₁ l₂ : List α) :
    optFoldlM f s (l₁ ++ l₂) = (optFoldlM f s l₁).bind fun t => optFoldlM f t l₂ := by
  induction l₁ generalizing s with
  | nil => simp
  | cons a l ih =>
    cases hfa : f s a <;> simp [hfa, ih]

/-! ## Lemmas about decimal digits and Python int round-trips -/

/-- Accumulator step of decimal parsing. -/
def digStep (a : Nat) (c : Char) : Nat := a * 10 + digitVal c

theorem digitsCore_cons_digit {c : Char} (hc : c.isDigit) (acc : Nat)
    (rest : List Char) :
    digitsCore acc (c :: rest) = digitsCore (acc * 10 + digitVal c) rest := by
  rw [digitsCore.eq_def]
  simp [hc]

theorem digitsCore_digits {l : List Char} (h : ∀ c ∈ l, c.isDigit) (acc : Nat) :
    digitsCore acc l = some (l.foldl digStep acc) := by
  induction l generalizing acc with
  | nil => rfl
  | cons c rest ih =>
    have hc : c.isDigit := h c (List.mem_cons_self c rest)
    rw [digitsCore_cons_digit hc, ih (fun x hx => h x (List.mem_cons_of_mem c hx))]
    simp [digStep]

theorem parseUIntL_digits {l : List Char} (hne : l ≠ []) (h : ∀ c ∈ l, c.isDigit) :
    parseUIntL l = some (l.foldl digStep 0) := by
  cases l with
  | nil => exact absurd rfl hne
  | cons c rest =>
    have hc : c.isDigit := h c (List.mem_cons_self c rest)
    rw [parseUIntL, if_pos hc,
      digitsCore_digits (fun x hx => h x (List.mem_cons_of_mem c hx)) (digitVal c)]
    simp [digStep]

theorem digitChar_facts :
    ∀ m : Nat, m < 10 →
      (Char.ofNat (48 + m)).isDigit = true ∧ digitVal (Char.ofNat (48 + m)) = m := by
  decide

theorem natDigsAux_isDigit :
    ∀ fuel n : Nat, ∀ c ∈ natDigsAux fuel n, c.isDigit := by
  intro fuel
  induction fuel with
  | zero => intro n c hc; simp [natDigsAux] at hc
  | succ fuel ih =>
    intro n c hc
    by_cases hn : n = 0
    · simp [natDigsAux, hn] at hc
    · simp only [natDigsAux, hn, if_false, List.mem_append, List.mem_singleton] at hc
      rcases hc with hc | hc
      · exact ih _ _ hc
      · subst hc
        exact (digitChar_facts (n % 10) (Nat.mod_lt _ (by norm_num))).1

theorem natDigsAux_foldl :
    ∀ fuel n a : Nat, n ≤ fuel →
      (natDigsAux fuel n).foldl digStep a =
        a * 10 ^ (natDigsAux fuel n).length + n := by
  intro fuel
  induction fuel with
  | zero =>
    intro n a h
    interval_cases n
    simp [natDigsAux]
  | succ fuel ih =>
    intro n a h
    by_cases hn : n = 0
    · simp [natDigsAux, hn]
    · have hpos : 0 < n := Nat.pos_of_ne_zero hn
      have hdiv : n / 10 ≤ fuel :=
        Nat.le_of_lt_succ (Nat.lt_of_lt_of_le (Nat.div_lt_self hpos (by norm_num)) h)
      simp only [natDigsAux, hn, if_false]
      rw [List.foldl_append, ih (n / 10) a hdiv]
      simp only [List.foldl, digStep,
        (digitChar_facts (n % 10) (Nat.mod_lt _ (by norm_num))).2,
        List.length_append, List.length_singleton]
      rw [pow_succ]
      have hmod := Nat.div_add_mod n 10
      ring_nf
      omega

theorem natDigs_isDigit (n : Nat) : ∀ c ∈ natDigs n, c.isDigit := by
  intro c hc
  rw [natDigs] at hc
  by_cases hn : n = 0
  · simp [hn] at hc
    subst hc; decide
  · simp only [hn, if_false] at hc
    exact natDigsAux_isDigit n n c hc

theorem natDigs_ne_nil (n : Nat) : natDigs n ≠ [] := by
  rw [natDigs]
  by_cases hn : n = 0
  · simp [hn]
  · simp only [hn, if_false]
    cases n with
    | zero => exact absurd rfl hn
    | succ m =>
      simp only [natDigsAux, hn, if_false]
      simp

theorem foldl_digStep_natDigs (n : Nat) : (natDigs n).foldl digStep 0 = n := by
  rw [natDigs]
  by_cases hn : n = 0
  · simp [hn, digStep]
    decide
  · simp only [hn, if_false]
    rw [natDigsAux_foldl n n 0 (le_refl n)]
    simp

theorem parseUIntL_natDigs (n : Nat) : parseUIntL (natDigs n) = some n := by
  rw [parseUIntL_digits (natDigs_ne_nil n) (natDigs_isDigit n), foldl_digStep_natDigs]

/-- Characters that satisfy a false predicate everywhere are kept by
dropWhile. -/
theorem dropWhile_eq_self_of {p : Char → Bool} {l : List Char}
    (h : ∀ c ∈ l, ¬ p c) : l.dropWhile p = l := by
  cases l with
  | nil => rfl
  | cons c rest =>
    have : ¬ p c := h c (List.mem_cons_self c rest)
    simp [List.dropWhile, this]

theorem stripWs_eq_self {l : List Char} (h : ∀ c ∈ l, ¬ c.isWhitespace) :
    stripWs l = l := by
  unfold stripWs
  rw [dropWhile_eq_self_of h,
    dropWhile_eq_self_of (fun c hc => h c (List.mem_reverse.mp hc)),
    List.reverse_reverse]

theorem isDigit_not_ws {c : Char} (h : c.isDigit) : ¬ c.isWhitespace := by
  intro hw
  have hd : c = ' ' ∨ c = '\t' ∨ c = '\r' ∨ c = '\n' := by
    simp [Char.isWhitespace] at hw
    tauto
  rcases hd with rfl | rfl | rfl | rfl <;> exact absurd h (by decide)

theorem isDigit_ne_sign {c : Char} (h : c.isDigit) : c ≠ '+' ∧ c ≠ '-' := by
  constructor <;> intro he <;> subst he <;> simpa using h

/-- Unfolding pyIntL when the stripped input starts with an ordinary
character. -/
theorem pyIntL_of_cons {l : List Char} {c : Char} {rest : List Char}
    (h : stripWs l = c :: rest) (h1 : c ≠ '+') (h2 : c ≠ '-') :
    pyIntL l = (parseUIntL (c :: rest)).map Int.ofNat := by
  unfold pyIntL
  rw [h]
  simp [h1, h2]

/-- Unfolding pyIntL when the stripped input starts with a minus sign. -/
theorem pyIntL_of_neg {l : List Char} {rest : List Char}
    (h : stripWs l = '-' :: rest) :
    pyIntL l = (parseUIntL rest).map (fun n => -(n : Int)) := by
  unfold pyIntL
  rw [h]
  simp

/-- Python int applied to the Python str of an integer gives it back. -/
theorem pyIntL_intDigs (n : Int) : pyIntL (intDigs n) = some n := by
  by_cases hn : n < 0
  · have hd : intDigs n = '-' :: natDigs n.natAbs := by simp [intDigs, hn]
    have hs : stripWs (intDigs n) = '-' :: natDigs n.natAbs := by
      rw [hd]
      refine stripWs_eq_self ?_
      intro c hc
      rcases hc with _ | hc
      · decide
      · exact isDigit_not_ws (natDigs_isDigit _ c (by assumption))
    have hv : -(n.natAbs : Int) = n := by omega
    rw [pyIntL_of_neg hs, parseUIntL_natDigs]
    show some (-(n.natAbs : Int)) = some n
    rw [hv]
  · have hd : intDigs n = natDigs n.toNat := by simp [intDigs, hn]
    obtain ⟨c, rest, hcr⟩ : ∃ c rest, natDigs n.toNat = c :: rest := by
      cases h : natDigs n.toNat with
      | nil => exact absurd h (natDigs_ne_nil _)
      | cons c rest => exact ⟨c, rest, rfl⟩
    have hcd : c.isDigit := natDigs_isDigit _ c (hcr ▸ List.mem_cons_self c rest)
    have hs : stripWs (intDigs n) = c :: rest := by
      rw [hd, hcr]
      refine stripWs_eq_self ?_
      intro x hx
      exact isDigit_not_ws (natDigs_isDigit _ x (hcr ▸ hx))
    have hv : ((n.toNat : Nat) : Int) = n := Int.toNat_of_nonneg (not_lt.mp hn)
    rw [pyIntL_of_cons hs (isDigit_ne_sign hcd).1 (isDigit_ne_sign hcd).2,
      ← hcr, parseUIntL_natDigs]
    show some ((n.toNat : Nat) : Int) = some n
    rw [hv]

theorem intDigs_no_dot (n : Int) : '.' ∉ intDigs n := by
  intro hc
  rw [intDigs] at hc
  by_cases hn : n < 0
  · simp only [hn, if_true] at hc
    rcases hc with _ | hc
    · exact absurd (natDigs_isDigit _ '.' (by assumption)) (by decide)
  · simp only [hn, if_false] at hc
    exact absurd (natDigs_isDigit _ '.' hc) (by decide)

/-! ## Lemmas about splitting on the dot -/

theorem splitDotL_no_dot {l : List Char} (h : '.' ∉ l) : splitDotL l = [l] := by
  induction l with
  | nil => rfl
  | cons c rest ih =>
    have hc : c ≠ '.' := fun e => h (e ▸ List.mem_cons_self c rest)
    have hr : '.' ∉ rest := fun m => h (List.mem_cons_of_mem c m)
    simp [splitDotL, hc, ih hr]

theorem splitDotL_append_dot {a : List Char} (h : '.' ∉ a) (b : List Char) :
    splitDotL (a ++ '.' :: b) = a :: splitDotL b := by
  induction a with
  | nil => simp [splitDotL]
  | cons c rest ih =>
    have hc : c ≠ '.' := fun e => h (e ▸ List.mem_cons_self c rest)
    have hr : '.' ∉ rest := fun m => h (List.mem_cons_of_mem c m)
    simp [splitDotL, hc, ih hr]

/-- Parsing a string built from a dot-free name and a dot-free unit part
followed by an ignored tail picks out exactly those two segments. -/
theorem parse_decomposed {a b : List Char} (ha : '.' ∉ a) (hb : '.' ∉ b) :
    new_interface_from_string ⟨a ++ '.' :: b⟩ =
      (pyIntL b).map (fun n => ⟨⟨a⟩, n⟩) := by
  unfold new_interface_from_string
  have hdata : (⟨a ++ '.' :: b⟩ : String).data = a ++ '.' :: b := rfl
  rw [hdata, splitDotL_append_dot ha, splitDotL_no_dot hb]

/-! ## Claim C2: parse/serialize round-trip -/

/-- C2, counterexample.  The string irb0.007 is valid by the claim (one
separator, int parses the unit part to 7), yet serializing the parsed
reference yields irb0.7, not the original string: the round-trip fails
on units that are not written canonically. -/
theorem roundtrip_fails_noncanonical_unit :
    "irb0.007".data.count '.' = 1 ∧
    pyInt "007" = some 7 ∧
    (new_interface_from_string "irb0.007").map config_rep = some "irb0.7" ∧
    ("irb0.7" : String) ≠ "irb0.007" :=
  ⟨by decide, by decide, by decide, by decide⟩

/-- C2 (amended).  For every dot-free name and every integer unit written
canonically (exactly as Python str renders the parsed value), parsing the
string name dot unit succeeds with that name and unit, and config_rep
reproduces the string exactly; so serialize after parse is the identity
precisely on references whose unit part is in canonical form. -/
theorem interface_roundtrip_canonical (nm : List Char) (n : Int)
    (h : '.' ∉ nm) :
    new_interface_from_string ⟨nm ++ '.' :: intDigs n⟩ = some ⟨⟨nm⟩, n⟩ ∧
    config_rep ⟨⟨nm⟩, n⟩ = ⟨nm ++ '.' :: intDigs n⟩ := by
  constructor
  · rw [parse_decomposed h (intDigs_no_dot n), pyIntL_intDigs]
    rfl
  · rfl

/-- C2 witness: the round-trip theorem applied to the reference irb0.100
of the specification scenario. -/
theorem interface_roundtrip_canonical_witness :
    ('.' ∉ "irb0".data) ∧
    ((⟨"irb0".data ++ '.' :: intDigs 100⟩ : String) = "irb0.100") ∧
    new_interface_from_string ⟨"irb0".data ++ '.' :: intDigs 100⟩ =
      some ⟨⟨"irb0".data⟩, 100⟩ ∧
    config_rep ⟨⟨"irb0".data⟩, 100⟩ = ⟨"irb0".data ++ '.' :: intDigs 100⟩ :=
  ⟨by decide, by decide,
   (interface_roundtrip_canonical "irb0".data 100 (by decide)).1,
   (interface_roundtrip_canonical "irb0".data 100 (by decide)).2⟩

/-! ## Claim C7: parse failure characterization -/

/-- C7, counterexample.  The string a.1.2 has two separators, hence is
malformed by the claim, yet new_interface_from_string accepts it
silently, returning the first segment as name and the second as unit. -/
theorem parse_accepts_two_separators :
    "a.1.2".data.count '.' = 2 ∧
    new_interface_from_string "a.1.2" = some ⟨"a", 1⟩ :=
  ⟨by decide, by decide⟩

/-- C7 (amended).  Parsing fails on a string with no separator (in
particular irb0 fails, never silently accepted), and on a string with at
least one separator it fails exactly when int() rejects the segment
between the first separator and the following separator or end; any
content after that segment is ignored, so strings with extra separators
can be accepted silently. -/
theorem parse_failure_characterization :
    (∀ s : String, '.' ∉ s.data → new_interface_from_string s = none) ∧
    (∀ a b rest : List Char, '.' ∉ a → '.' ∉ b →
      (rest = [] ∨ ∃ r, rest = '.' :: r) →
      new_interface_from_string ⟨a ++ '.' :: (b ++ rest)⟩ =
        (pyIntL b).map (fun n => ⟨⟨a⟩, n⟩)) := by
  constructor
  · intro s h
    unfold new_interface_from_string
    rw [splitDotL_no_dot h]
  · intro a b rest ha hb hrest
    unfold new_interface_from_string
    have hdata : (⟨a ++ '.' :: (b ++ rest)⟩ : String).data
        = a ++ '.' :: (b ++ rest) := rfl
    rcases hrest with rfl | ⟨r, rfl⟩
    · rw [hdata, splitDotL_append_dot ha, List.append_nil, splitDotL_no_dot hb]
    · rw [hdata, splitDotL_append_dot ha, splitDotL_append_dot hb]

/-- C7 witness: the characterization applied to the failing string irb0
of the specification scenario and to the silently accepted string a.1.2. -/
theorem parse_failure_characterization_witness :
    ('.' ∉ "irb0".data) ∧
    new_interface_from_string "irb0" = none ∧
    new_interface_from_string ⟨"a".data ++ '.' :: ("1".data ++ '.' :: "2".data)⟩ =
      some ⟨"a", 1⟩ := by
  refine ⟨by decide, parse_failure_characterization.1 "irb0" (by decide), ?_⟩
  rw [parse_failure_characterization.2 "a".data "1".data ('.' :: "2".data)
    (by decide) (by decide) (Or.inr ⟨"2".data, rfl⟩)]
  rfl

/-! ## Claim C1: network-instance filtering -/

/-- Name field of a record, when present and a string. -/
def entryName (e : JValue) : Option String := (getField e "name").bind asStr

/-- Number of configured substrings contained in a name. -/
def countMatches (keep : List String) (name : String) : Nat :=
  (keep.filter (fun sub => strHas name sub)).length

theorem dropNisEntry_eq (keep : List String) (e : JValue) :
    dropNisEntry keep e =
      (entryName e).map (fun nm => List.replicate (countMatches keep nm) e) := by
  unfold dropNisEntry entryName
  cases getField e "name" with
  | none => rfl
  | some nv =>
    cases nv <;> simp [asStr, countMatches, List.map_const']

theorem optMapM_dropNis {keep : List String} {entries : List JValue}
    {ns : List String} (h : optMapM entryName entries = some ns) :
    optMapM (dropNisEntry keep) entries =
      some ((entries.zip ns).map fun p => List.replicate (countMatches keep p.2) p.1) := by
  induction entries generalizing ns with
  | nil =>
    simp only [optMapM_nil, Option.some_inj] at h
    subst h
    rfl
  | cons e rest ih =>
    rw [optMapM_cons] at h
    cases hn : entryName e with
    | none => simp [hn] at h
    | some nm =>
      rw [hn] at h
      cases hr : optMapM entryName rest with
      | none => simp [hr] at h
      | some ms =>
        rw [hr] at h
        simp at h
        subst h
        rw [optMapM_cons, dropNisEntry_eq, hn, ih hr]
        simp

/-- C1, counterexample.  With the configured list of config_filter.py, a
network-instance whose name contains both keep substrings is appended
once per match: the output list holds the same entry twice, violating
the claim that each kept entry appears exactly once. -/
theorem drop_nis_duplicates_entry :
    strHas "default-infrastructure" "infrastructure" = true ∧
    strHas "default-infrastructure" "default" = true ∧
    drop_nis keep_nis_cf
        (.jobj [("network-instance",
          .jarr [.jobj [("name", .jstr "default-infrastructure")]])]) =
      some (.jobj [("network-instance",
        .jarr [.jobj [("name", .jstr "default-infrastructure")],
               .jobj [("name", .jstr "default-infrastructure")]])]) ∧
    JValue.jarr [.jobj [("name", .jstr "default-infrastructure")],
                 .jobj [("name", .jstr "default-infrastructure")]] ≠
      .jarr [.jobj [("name", .jstr "default-infrastructure")]] := by
  refine ⟨rfl, rfl, rfl, ?_⟩
  simp

/-- C1 (amended).  For every document and substring list, the filter
rebuilds the network-instance list as the concatenation, in original
entry order, of one block per entry, where the block repeats the entry
once per configured substring that its name contains.  Hence an entry is kept
exactly when its name contains at least one substring, relative order is
preserved, an entry matching exactly one substring appears exactly once,
and an entry matching several substrings is duplicated once per match. -/
theorem drop_nis_characterization (keep : List String)
    (o : List (String × JValue)) (entries : List JValue) (ns : List String)
    (hni : getKey o "network-instance" = some (.jarr entries))
    (hns : optMapM entryName entries = some ns) :
    drop_nis keep (.jobj o) =
      some (.jobj (setKey o "network-instance"
        (.jarr ((entries.zip ns).flatMap fun p =>
          List.replicate (countMatches keep p.2) p.1)))) := by
  have e : drop_nis keep (.jobj o) =
      (getKey o "network-instance").bind fun niv =>
        (asArr niv).bind fun entries =>
          (optMapM (dropNisEntry keep) entries).map fun blocks =>
            .jobj (setKey o "network-instance" (.jarr blocks.flatten)) := rfl
  rw [e, hni]
  show (optMapM (dropNisEntry keep) entries).map (fun blocks =>
      JValue.jobj (setKey o "network-instance" (.jarr blocks.flatten))) = _
  rw [optMapM_dropNis hns]
  rfl

/-- C1 witness: the characterization applied to a two-instance document,
keeping the infrastructure instance once and dropping the other. -/
theorem drop_nis_characterization_witness :
    getKey [("network-instance",
        JValue.jarr [.jobj [("name", .jstr "infra-mgmt")],
                     .jobj [("name", .jstr "other")]])] "network-instance" =
      some (.jarr [.jobj [("name", .jstr "infra-mgmt")],
                   .jobj [("name", .jstr "other")]]) ∧
    optMapM entryName [JValue.jobj [("name", .jstr "infra-mgmt")],
                       .jobj [("name", .jstr "other")]] =
      some ["infra-mgmt", "other"] ∧
    drop_nis keep_nis_cf
        (.jobj [("network-instance",
          .jarr [.jobj [("name", .jstr "infra-mgmt")],
                 .jobj [("name", .jstr "other")]])]) =
      some (.jobj (setKey [("network-instance",
          JValue.jarr [.jobj [("name", .jstr "infra-mgmt")],
                       .jobj [("name", .jstr "other")]])] "network-instance"
        (.jarr (([JValue.jobj [("name", .jstr "infra-mgmt")],
                  .jobj [("name", .jstr "other")]].zip
                    ["infra-mgmt", "other"]).flatMap fun p =>
          List.replicate (countMatches keep_nis_cf p.2) p.1)))) :=
  ⟨rfl, rfl, drop_nis_characterization keep_nis_cf _ _ _ rfl rfl⟩

/-! ## Claim C3: BFD pruning -/

/-- Id field of a BFD binding. -/
def entryId (e : JValue) : Option JValue := getField e "id"

/-- Number of in-use interfaces whose canonical representation equals the
id value of a BFD binding. -/
def bfdCount (irbs : List Interface) (idv : JValue) : Nat :=
  (irbs.filter (fun r => pyEqStr idv (config_rep r))).length

theorem pyEqStr_eq {v : JValue} {t : String} (h : pyEqStr v t = true) :
    v = .jstr t := by
  cases v <;> simp [pyEqStr] at h
  simp [h]

theorem bfdEntryMatches_eq (irbs : List Interface) (e : JValue) :
    bfdEntryMatches irbs e =
      (entryId e).map (fun idv => List.replicate (bfdCount irbs idv) e) := by
  unfold bfdEntryMatches entryId
  cases getField e "id" with
  | none => rfl
  | some idv => simp [bfdCount, List.map_const']

theorem optMapM_bfd {irbs : List Interface} {entries : List JValue}
    {ids : List JValue} (h : optMapM entryId entries = some ids) :
    optMapM (bfdEntryMatches irbs) entries =
      some ((entries.zip ids).map fun p => List.replicate (bfdCount irbs p.2) p.1) := by
  induction entries generalizing ids with
  | nil =>
    simp only [optMapM_nil, Option.some_inj] at h
    subst h
    rfl
  | cons e rest ih =>
    rw [optMapM_cons] at h
    cases hn : entryId e with
    | none => simp [hn] at h
    | some idv =>
      rw [hn] at h
      cases hr : optMapM entryId rest with
      | none => simp [hr] at h
      | some ms =>
        rw [hr] at h
        simp at h
        subst h
        rw [optMapM_cons, bfdEntryMatches_eq, hn, ih hr]
        simp

/-- Under pairwise-distinct canonical representations, an id matches at
most one in-use interface. -/
theorem bfdCount_le_one {irbs : List Interface}
    (hnd : (irbs.map config_rep).Nodup) (idv : JValue) :
    bfdCount irbs idv ≤ 1 := by
  induction irbs with
  | nil => simp [bfdCount]
  | cons r rest ih =>
    simp only [List.map_cons, List.nodup_cons] at hnd
    obtain ⟨hrep, hrest⟩ := hnd
    by_cases hm : pyEqStr idv (config_rep r) = true
    · have hid : idv = .jstr (config_rep r) := pyEqStr_eq hm
      have hempty : rest.filter (fun r' => pyEqStr idv (config_rep r')) = [] := by
        rw [List.filter_eq_nil_iff]
        intro r' hr' hm'
        have : config_rep r' = config_rep r := by
          have := pyEqStr_eq hm'
          rw [hid] at this
          exact (JValue.jstr.injEq _ _).mp this.symm
        exact hrep (this ▸ List.mem_map_of_mem config_rep hr')
      simp [bfdCount, List.filter_cons, hm, hempty]
    · simp only [bfdCount, List.filter_cons, hm, if_false]
      exact ih hrest

/-- Counts of zero or one collapse the replicate blocks to a filter. -/
theorem flatMap_replicate_le_one {β : Type} (l : List (β × JValue))
    (cnt : JValue → Nat) (hle : ∀ p ∈ l, cnt p.2 ≤ 1) :
    (l.flatMap fun p => List.replicate (cnt p.2) p.1) =
      l.filterMap (fun p => if 1 ≤ cnt p.2 then some p.1 else none) := by
  induction l with
  | nil => rfl
  | cons p rest ih =>
    have hp := hle p (List.mem_cons_self p rest)
    have hrest := fun q hq => hle q (List.mem_cons_of_mem p hq)
    rw [List.flatMap_cons, List.filterMap_cons, ih hrest]
    interval_cases h : cnt p.2 <;> simp

/-- A filterMap that only ever returns the first component of a zip pair
produces a subsequence of the underlying list. -/
theorem filterMap_zip_sublist {β : Type} (entries : List JValue) (ids : List β)
    (f : JValue × β → Option JValue)
    (hf : ∀ q, f q = none ∨ f q = some q.1) :
    ((entries.zip ids).filterMap f).Sublist entries := by
  induction entries generalizing ids with
  | nil => simp
  | cons e rest ih =>
    cases ids with
    | nil => simp
    | cons i irest =>
      rw [List.zip_cons_cons, List.filterMap_cons]
      rcases hf (e, i) with h | h
      · rw [h]
        exact (ih irest).cons e
      · rw [h]
        exact (ih irest).cons₂ e

/-- C3, counterexample.  A list of in-use references containing the same
reference twice (obtainable from the raw strings irb0.1 and irb0.01,
which parse to the same reference) makes remove_bfd append a matching
binding twice, so the output is not a subsequence of the input with each
entry at most once. -/
theorem remove_bfd_duplicates_entry :
    deduce_cf (.jobj [("network-instance", .jarr [.jobj [("name", .jstr "ni"),
        ("interface", .jarr [.jobj [("name", .jstr "irb0.1")],
                             .jobj [("name", .jstr "irb0.01")]])]])]) =
      some [⟨"irb0", 1⟩, ⟨"irb0", 1⟩] ∧
    remove_bfd [⟨"irb0", 1⟩, ⟨"irb0", 1⟩]
        (.jobj [("bfd", .jobj [("subinterface",
          .jarr [.jobj [("id", .jstr "irb0.1")]])])]) =
      some (.jobj [("bfd", .jobj [("subinterface",
        .jarr [.jobj [("id", .jstr "irb0.1")],
               .jobj [("id", .jstr "irb0.1")]])])]) ∧
    ¬ List.Sublist
        [JValue.jobj [("id", .jstr "irb0.1")], .jobj [("id", .jstr "irb0.1")]]
        [JValue.jobj [("id", .jstr "irb0.1")]] := by
  refine ⟨rfl, rfl, ?_⟩
  intro h
  have := h.length_le
  simp at this

/-- C3 (amended).  remove_bfd rebuilds the BFD subinterface list as one
block per binding, in original order, repeating the binding once per
in-use reference whose canonical representation equals its id.  When the
canonical representations are pairwise distinct, as they are whenever the
deduced reference list has no duplicates, the result is exactly the
order-preserving subsequence of bindings whose id matches some in-use
reference, each kept entry appearing once. -/
theorem remove_bfd_characterization (irbs : List Interface)
    (o bo : List (String × JValue)) (entries ids : List JValue)
    (hb : getKey o "bfd" = some (.jobj bo))
    (hs : getKey bo "subinterface" = some (.jarr entries))
    (hids : optMapM entryId entries = some ids) :
    remove_bfd irbs (.jobj o) =
      some (.jobj (setKey o "bfd" (.jobj (setKey bo "subinterface"
        (.jarr ((entries.zip ids).flatMap fun p =>
          List.replicate (bfdCount irbs p.2) p.1)))))) ∧
    ((irbs.map config_rep).Nodup →
      ((entries.zip ids).flatMap fun p =>
          List.replicate (bfdCount irbs p.2) p.1) =
        ((entries.zip ids).filterMap fun p =>
          if 1 ≤ bfdCount irbs p.2 then some p.1 else none) ∧
      (((entries.zip ids).filterMap fun p =>
          if 1 ≤ bfdCount irbs p.2 then some p.1 else none).Sublist entries)) := by
  constructor
  · have e : remove_bfd irbs (.jobj o) =
        (getKey o "bfd").bind fun bfdv =>
          (asObj bfdv).bind fun bo =>
            (getKey bo "subinterface").bind fun sv =>
              (asArr sv).bind fun entries =>
                (optMapM (bfdEntryMatches irbs) entries).map fun blocks =>
                  .jobj (setKey o "bfd" (.jobj (setKey bo "subinterface"
                    (.jarr blocks.flatten)))) := rfl
    rw [e, hb]
    show (getKey bo "subinterface").bind _ = _
    rw [hs]
    show (optMapM (bfdEntryMatches irbs) entries).map _ = _
    rw [optMapM_bfd hids]
    rfl
  · intro hnd
    have hle : ∀ p ∈ entries.zip ids, bfdCount irbs p.2 ≤ 1 :=
      fun p _ => bfdCount_le_one hnd p.2
    refine ⟨flatMap_replicate_le_one _ _ hle, ?_⟩
    refine filterMap_zip_sublist entries ids _ (fun q => ?_)
    by_cases h : 1 ≤ bfdCount irbs q.2
    · exact Or.inr (by simp [h])
    · exact Or.inl (by simp [h])

/-- BFD bindings of the specification scenario. -/
def c3wEntries : List JValue :=
  [.jobj [("id", .jstr "irb0.100")], .jobj [("id", .jstr "irb0.200")]]

/-- BFD object of the specification scenario. -/
def c3wBo : List (String × JValue) := [("subinterface", .jarr c3wEntries)]

/-- Document of the specification scenario. -/
def c3wO : List (String × JValue) := [("bfd", .jobj c3wBo)]

/-- Id values of the scenario bindings. -/
def c3wIds : List JValue := [.jstr "irb0.100", .jstr "irb0.200"]

/-- C3 witness: the characterization applied to the specification
scenario, a two-binding list pruned by the single reference irb0.100. -/
theorem remove_bfd_characterization_witness :
    getKey c3wO "bfd" = some (.jobj c3wBo) ∧
    getKey c3wBo "subinterface" = some (.jarr c3wEntries) ∧
    optMapM entryId c3wEntries = some c3wIds ∧
    remove_bfd [⟨"irb0", 100⟩] (.jobj c3wO) =
      some (.jobj (setKey c3wO "bfd" (.jobj (setKey c3wBo "subinterface"
        (.jarr ((c3wEntries.zip c3wIds).flatMap fun p =>
          List.replicate (bfdCount [⟨"irb0", 100⟩] p.2) p.1)))))) :=
  ⟨rfl, rfl, rfl,
   (remove_bfd_characterization [⟨"irb0", 100⟩] c3wO c3wBo c3wEntries c3wIds
     rfl rfl rfl).1⟩

/-! ## Claim C5: the emitter -/

/-- C5.  The finish of main.py opens the destination file with mode rw,
which the Python open built-in rejects (a mode must contain exactly one
of create, read, write or append): with a provided destination the write
always raises ValueError and never succeeds, for every document and
every path.  The finish of config_filter.py uses the valid mode w+,
truncating the destination and writing, as the claim describes. -/
theorem finish_main_file_always_fails (doc : JValue) (path : String) :
    modeOk "rw" = false ∧
    finish_main doc (some path) = none ∧
    modeOk "w+" = true ∧
    finish_cf doc (some path) = some (.toFile path doc) :=
  ⟨by decide, rfl, by decide, rfl⟩

/-! ## Claim C9: strict interface pruning of main.py -/

/-- Specification-side processing of one entry for one in-use interface:
some record when the names match and the record builds, an inner none
when the entry is skipped. -/
def strictEntryProc (r : Interface) (e : JValue) : Option (Option JValue) :=
  (getField e "name").bind fun nv =>
    if pyEqStr nv r.interface_name then (strictRecord e r).map some
    else some none

/-- Specification-side records of one in-use interface: one record per
name-matching entry, in document order. -/
def strictRefRecords (entries : List JValue) (r : Interface) :
    Option (List JValue) :=
  (optMapM (strictEntryProc r) entries).map (fun l => l.filterMap id)

/-- Specification-side form of the whole strict pruning: concatenate the
per-reference record lists in the order of the in-use list. -/
def strictSpec (refs : List Interface) (entries : List JValue) :
    Option (List JValue) :=
  (optMapM (strictRefRecords entries) refs).map List.flatten

theorem strictStepEntry_eq (r : Interface) (acc : List JValue) (e : JValue) :
    strictStepEntry r acc e =
      (strictEntryProc r e).map (fun ob => acc ++ ob.toList) := by
  unfold strictStepEntry strictEntryProc
  cases hn : getField e "name" with
  | none => rfl
  | some nv =>
    by_cases hm : pyEqStr nv r.interface_name
    · cases strictRecord e r <;> simp [hm]
    · simp [hm]

theorem optFoldlM_toList_eq {α β : Type} (f : α → Option (Option β))
    (l : List α) (acc : List β) :
    optFoldlM (fun acc a => (f a).map (fun ob => acc ++ ob.toList)) acc l =
      (optMapM f l).map (fun obs => acc ++ obs.filterMap id) := by
  induction l generalizing acc with
  | nil => simp
  | cons a rest ih =>
    rw [optFoldlM_cons, optMapM_cons]
    cases hfa : f a with
    | none => rfl
    | some ob =>
      show optFoldlM (fun acc a => (f a).map (fun ob => acc ++ ob.toList))
          (acc ++ ob.toList) rest =
        ((optMapM f rest).map (fun bs => ob :: bs)).map
          (fun obs => acc ++ obs.filterMap id)
      rw [ih (acc ++ ob.toList)]
      cases optMapM f rest with
      | none => rfl
      | some obs => cases ob <;> simp

theorem strictStep_eq (entries : List JValue) (acc : List JValue)
    (r : Interface) :
    strictStep entries acc r =
      (strictRefRecords entries r).map (fun recs => acc ++ recs) := by
  unfold strictStep strictRefRecords
  have hf : strictStepEntry r =
      fun acc e => (strictEntryProc r e).map (fun ob => acc ++ ob.toList) := by
    funext acc e
    exact strictStepEntry_eq r acc e
  rw [hf, optFoldlM_toList_eq]
  cases optMapM (strictEntryProc r) entries <;> simp

theorem optFoldlM_strictStep (refs : List Interface) (entries : List JValue)
    (acc : List JValue) :
    optFoldlM (strictStep entries) acc refs =
      (optMapM (strictRefRecords entries) refs).map
        (fun ls => acc ++ ls.flatten) := by
  induction refs generalizing acc with
  | nil => simp
  | cons r rest ih =>
    rw [optFoldlM_cons, optMapM_cons, strictStep_eq]
    cases strictRefRecords entries r with
    | none => rfl
    | some recs =>
      show optFoldlM (strictStep entries) (acc ++ recs) rest =
        ((optMapM (strictRefRecords entries) rest).map
          (fun bs => recs :: bs)).map (fun ls => acc ++ ls.flatten)
      rw [ih (acc ++ recs)]
      cases optMapM (strictRefRecords entries) rest with
      | none => rfl
      | some ls => simp

/-- The subinterface filter keeps, in order, exactly the entries whose
index value equals the unit. -/
theorem filtIdx_eq_filterMap {u : Int} {subs ivs : List JValue}
    (h : optMapM (fun s => getField s "index") subs = some ivs) :
    filtIdx u subs = some ((subs.zip ivs).filterMap fun p =>
      if pyEqInt p.2 u then some p.1 else none) := by
  induction subs generalizing ivs with
  | nil =>
    simp only [optMapM_nil, Option.some_inj] at h
    subst h
    rfl
  | cons s rest ih =>
    rw [optMapM_cons] at h
    cases hn : getField s "index" with
    | none => simp [hn] at h
    | some iv =>
      rw [hn] at h
      cases hr : optMapM (fun s => getField s "index") rest with
      | none => simp [hr] at h
      | some ivrest =>
        rw [hr] at h
        simp at h
        subst h
        unfold filtIdx
        rw [hn, ih hr]
        by_cases hm : pyEqInt iv u <;> simp [hm]

/-- C9.  In strict mode the output interface list is ordered by the
in-use reference list: it is the concatenation, over the references in
sequence, of one deep-copied record per name-matching entry in original
document order, each record holding exactly the subinterfaces whose
index equals the unit of that reference. -/
theorem remove_interfaces_main_characterization (refs : List Interface)
    (o : List (String × JValue)) (entries : List JValue)
    (hif : getKey o "interface" = some (.jarr entries)) :
    remove_interfaces_main refs (.jobj o) =
      (strictSpec refs entries).map
        (fun recs => .jobj (setKey o "interface" (.jarr recs))) ∧
    (∀ (u : Int) (subs ivs : List JValue),
      optMapM (fun s => getField s "index") subs = some ivs →
      filtIdx u subs = some ((subs.zip ivs).filterMap fun p =>
        if pyEqInt p.2 u then some p.1 else none)) := by
  constructor
  · have e : remove_interfaces_main refs (.jobj o) =
        (getKey o "interface").bind fun iv =>
          (asArr iv).bind fun entries =>
            (optFoldlM (strictStep entries) [] refs).map fun recs =>
              .jobj (setKey o "interface" (.jarr recs)) := rfl
    rw [e, hif]
    show (optFoldlM (strictStep entries) [] refs).map _ = _
    rw [optFoldlM_strictStep]
    unfold strictSpec
    cases optMapM (strictRefRecords entries) refs <;> simp
  · intro u subs ivs h
    exact filtIdx_eq_filterMap h

/-- Interface entry used by the strict-mode witness. -/
def c9E1 : JValue :=
  .jobj [("name", .jstr "irb0"),
         ("subinterface", .jarr [.jobj [("index", .jint 1)],
                                 .jobj [("index", .jint 2)]])]

/-- Document object used by the strict-mode witness. -/
def c9O : List (String × JValue) := [("interface", .jarr [c9E1])]

/-- C9 witness: the strict characterization applied to a one-entry
document pruned by the single reference irb0.1. -/
theorem remove_interfaces_main_characterization_witness :
    getKey c9O "interface" = some (.jarr [c9E1]) ∧
    remove_interfaces_main [⟨"irb0", 1⟩] (.jobj c9O) =
      (strictSpec [⟨"irb0", 1⟩] [c9E1]).map
        (fun recs => .jobj (setKey c9O "interface" (.jarr recs))) :=
  ⟨rfl,
   (remove_interfaces_main_characterization [⟨"irb0", 1⟩] c9O [c9E1] rfl).1⟩

/-! ## The consolidating variant: specification-side definitions

The consolidating remove_interfaces of config_filter.py is characterized,
for documents whose top-level interface records carry pairwise-distinct
names, as one pass over the entries: an entry produces a record exactly
when its name contains ethernet or matches some in-use reference, and the
record is a deep copy whose subinterface list is the concatenation, over
the in-use references matching the name in list order, of the
unit-matching subinterfaces of the entry. -/

/-- In-use references whose interface name equals the given name, in list
order. -/
def matchingRefs (refs : List Interface) (name : String) : List Interface :=
  refs.filter (fun r => name = r.interface_name)

/-- Whether an entry with the given name produces an output record. -/
def producesRec (refs : List Interface) (name : String) : Bool :=
  strHas name "ethernet" || refs.any (fun r => name = r.interface_name)

/-- Subinterfaces of one entry kept for one in-use interface. -/
def entryRefBlock (e : JValue) (r : Interface) : Option (List JValue) :=
  (getField e "subinterface").bind fun sv =>
    (asArr sv).bind fun sl => filtIdx r.unit sl

/-- The record built for one producing entry, given the references
matching its name. -/
def cfRecordM (e : JValue) (mrefs : List Interface) : Option JValue :=
  (optMapM (entryRefBlock e) mrefs).bind fun blocks =>
    setSubifs e blocks.flatten

/-- Specification-side per-entry result of the consolidating mode: some
record for a producing entry, an inner none for a skipped entry. -/
def cfEntrySpec (refs : List Interface) (e : JValue) : Option (Option JValue) :=
  (entryName e).bind fun name =>
    if producesRec refs name then
      (cfRecordM e (matchingRefs refs name)).map some
    else some none

/-- Specification-side consolidating output under distinct names. -/
def cfSpec (refs : List Interface) (entries : List JValue) :
    Option (List JValue) :=
  (optMapM (cfEntrySpec refs) entries).map (fun l => l.filterMap id)

/-! ## Lemmas about the consolidating loop under distinct names -/

/-- Overwriting a key twice keeps only the second write. -/
theorem setKey_setKey (o : List (String × JValue)) (k : String) (v w : JValue) :
    setKey (setKey o k v) k w = setKey o k w := by
  induction o with
  | nil => simp [setKey]
  | cons kv rest ih =>
    obtain ⟨k0, v0⟩ := kv
    by_cases hk : k0 = k
    · subst hk; simp [setKey]
    · simp [setKey, hk, ih]

/-- The loop state in which the record of the current entry sits at the
end of the result dict and interf points at it. -/
def workSt (res : List (String × JValue)) (name : String)
    (eo : List (String × JValue)) (subs : List JValue) : CState :=
  ⟨res ++ [(name, .jobj (setKey eo "subinterface" (.jarr subs)))], some name⟩

theorem appendSubif_workSt {res : List (String × JValue)} {name : String}
    (habs : getKey res name = none) (eo : List (String × JValue))
    (subs : List JValue) (x : JValue) :
    appendSubif (workSt res name eo subs) x =
      some (workSt res name eo (subs ++ [x])) := by
  have h1 : getKey (res ++ [(name, JValue.jobj (setKey eo "subinterface" (.jarr subs)))]) name
      = some (.jobj (setKey eo "subinterface" (.jarr subs))) := by
    rw [getKey_append_right habs]
    simp [getKey]
  unfold appendSubif workSt
  dsimp only [Option.bind]
  rw [h1]
  dsimp only [Option.bind, asObj]
  rw [getKey_setKey_self]
  dsimp only [Option.bind, asArr, Option.map]
  rw [setKey_setKey, setKey_append_right habs]
  simp [setKey]

/-- Folding the subinterface loop from a working state appends exactly
the unit-matching subinterfaces. -/
theorem cfSubifFold {res : List (String × JValue)} {name : String}
    (habs : getKey res name = none) (eo : List (String × JValue))
    (u : Int) (sl : List JValue) (subs : List JValue) :
    optFoldlM (cfSubifStep u) (workSt res name eo subs) sl =
      (filtIdx u sl).map (fun kept => workSt res name eo (subs ++ kept)) := by
  induction sl generalizing subs with
  | nil => simp [filtIdx]
  | cons s rest ih =>
    rw [optFoldlM_cons]
    unfold cfSubifStep filtIdx
    cases hn : getField s "index" with
    | none => rfl
    | some iv =>
      show (if pyEqInt iv u then appendSubif (workSt res name eo subs) s
            else some (workSt res name eo subs)).bind
          (fun t => optFoldlM (cfSubifStep u) t rest) = _
      by_cases hm : pyEqInt iv u
      · rw [if_pos hm, appendSubif_workSt habs]
        show optFoldlM (cfSubifStep u) (workSt res name eo (subs ++ [s])) rest = _
        rw [ih (subs ++ [s])]
        cases filtIdx u rest <;> simp [hm]
      · rw [if_neg hm]
        show optFoldlM (cfSubifStep u) (workSt res name eo subs) rest = _
        rw [ih subs]
        cases filtIdx u rest <;> simp [hm]

theorem setSubifs_jobj {e : JValue} {eo : List (String × JValue)}
    (he : asObj e = some eo) (subs : List JValue) :
    setSubifs e subs = some (.jobj (setKey eo "subinterface" (.jarr subs))) := by
  unfold setSubifs
  rw [he]
  rfl

theorem setSubifs_none {e : JValue} (he : asObj e = none) (subs : List JValue) :
    setSubifs e subs = none := by
  unfold setSubifs
  rw [he]
  rfl

/-- Folding the reference loop after the record of the current entry has
been created appends the blocks of all remaining name-matching
references. -/
theorem cfRefFold_created (refs : List Interface)
    {res : List (String × JValue)} {name : String}
    (habs : getKey res name = none) (e : JValue)
    (eo : List (String × JValue)) (subs : List JValue) :
    optFoldlM (cfRefStep e name) (workSt res name eo subs) refs =
      (optMapM (entryRefBlock e) (matchingRefs refs name)).map
        (fun blocks => workSt res name eo (subs ++ blocks.flatten)) := by
  induction refs generalizing subs with
  | nil => simp [matchingRefs]
  | cons r rest ih =>
    rw [optFoldlM_cons]
    by_cases hm : name = r.interface_name
    · have hpres : (getKey (workSt res name eo subs).result name).isSome := by
        unfold workSt
        dsimp only
        rw [getKey_append_right habs]
        simp [getKey]
      have e1 : cfRefStep e name (workSt res name eo subs) r =
          (getField e "subinterface").bind fun sv =>
            (asArr sv).bind fun sl =>
              optFoldlM (cfSubifStep r.unit) (workSt res name eo subs) sl := by
        unfold cfRefStep
        rw [if_pos hm, if_pos hpres]
        rfl
      have e2 : matchingRefs (r :: rest) name = r :: matchingRefs rest name := by
        unfold matchingRefs
        simp [List.filter_cons, hm]
      rw [e1, e2, optMapM_cons]
      cases hsv : getField e "subinterface" with
      | none =>
        have hb : entryRefBlock e r = none := by
          unfold entryRefBlock
          rw [hsv]
          rfl
        rw [hb]
        rfl
      | some sv =>
        dsimp only [Option.bind]
        cases hsl : asArr sv with
        | none =>
          have hb : entryRefBlock e r = none := by
            unfold entryRefBlock
            rw [hsv]
            dsimp only [Option.bind]
            rw [hsl]
          rw [hb]
          rfl
        | some sl =>
          dsimp only [Option.bind]
          rw [cfSubifFold habs]
          have hblock : entryRefBlock e = fun r' => filtIdx r'.unit sl := by
            funext r'
            unfold entryRefBlock
            rw [hsv]
            dsimp only [Option.bind]
            rw [hsl]
          simp only [hblock]
          cases hk : filtIdx r.unit sl with
          | none => rfl
          | some kept =>
            dsimp only [Option.bind, Option.map]
            rw [ih (subs ++ kept)]
            simp only [hblock]
            cases optMapM (fun r' => filtIdx r'.unit sl) (matchingRefs rest name) with
            | none => rfl
            | some blocks => simp
    · have e1 : cfRefStep e name (workSt res name eo subs) r =
          some (workSt res name eo subs) := by
        unfold cfRefStep
        rw [if_neg hm]
      have e2 : matchingRefs (r :: rest) name = matchingRefs rest name := by
        unfold matchingRefs
        simp [List.filter_cons, hm]
      rw [e1, e2]
      dsimp only [Option.bind]
      exact ih subs

/-- Folding the reference loop over an entry whose record does not exist
yet: nothing happens without a name match, and otherwise the record is
created at the first match and filled per matching reference. -/
theorem cfRefFold_not_created (refs : List Interface)
    {res : List (String × JValue)} {name : String} (cur0 : Option String)
    (habs : getKey res name = none) (e : JValue) :
    optFoldlM (cfRefStep e name) ⟨res, cur0⟩ refs =
      if matchingRefs refs name = [] then some (⟨res, cur0⟩ : CState)
      else (cfRecordM e (matchingRefs refs name)).map
        (fun rec => ⟨res ++ [(name, rec)], some name⟩) := by
  induction refs with
  | nil => simp [matchingRefs]
  | cons r rest ih =>
    rw [optFoldlM_cons]
    by_cases hm : name = r.interface_name
    · have e2 : matchingRefs (r :: rest) name = r :: matchingRefs rest name := by
        unfold matchingRefs
        simp [List.filter_cons, hm]
      rw [e2]
      have habs' : (getKey (CState.mk res cur0).result name).isSome = false := by
        dsimp only
        rw [habs]
        rfl
      have e1 : cfRefStep e name ⟨res, cur0⟩ r =
          ((setSubifs e []).map fun rec0 =>
            (⟨setKey res name rec0, some name⟩ : CState)).bind fun st1 =>
            (getField e "subinterface").bind fun sv =>
              (asArr sv).bind fun sl =>
                optFoldlM (cfSubifStep r.unit) st1 sl := by
        unfold cfRefStep
        rw [if_pos hm, habs']
        rfl
      rw [e1]
      cases heo : asObj e with
      | none =>
        rw [setSubifs_none heo]
        have : cfRecordM e (r :: matchingRefs rest name) = none := by
          unfold cfRecordM
          cases optMapM (entryRefBlock e) (r :: matchingRefs rest name) with
          | none => rfl
          | some blocks => exact setSubifs_none heo _
        rw [this]
        rfl
      | some eo =>
        rw [setSubifs_jobj heo]
        have hws : (⟨setKey res name (.jobj (setKey eo "subinterface" (.jarr []))),
            some name⟩ : CState) = workSt res name eo [] := by
          unfold workSt
          rw [setKey_absent habs]
        dsimp only [Option.map, Option.bind]
        rw [hws]
        unfold cfRecordM
        rw [optMapM_cons]
        cases hsv : getField e "subinterface" with
        | none =>
          have hb : entryRefBlock e r = none := by
            unfold entryRefBlock
            rw [hsv]
            rfl
          rw [hb]
          rfl
        | some sv =>
          dsimp only [Option.bind]
          cases hsl : asArr sv with
          | none =>
            have hb : entryRefBlock e r = none := by
              unfold entryRefBlock
              rw [hsv]
              dsimp only [Option.bind]
              rw [hsl]
            rw [hb]
            rfl
          | some sl =>
            dsimp only [Option.bind]
            rw [cfSubifFold habs]
            have hblock : entryRefBlock e = fun r' => filtIdx r'.unit sl := by
              funext r'
              unfold entryRefBlock
              rw [hsv]
              dsimp only [Option.bind]
              rw [hsl]
            simp only [hblock]
            cases hk : filtIdx r.unit sl with
            | none => rfl
            | some kept =>
              dsimp only [Option.bind, Option.map]
              rw [cfRefFold_created rest habs e eo ([] ++ kept)]
              simp only [hblock]
              cases optMapM (fun r' => filtIdx r'.unit sl) (matchingRefs rest name) with
              | none => rfl
              | some blocks =>
                dsimp only [Option.bind, Option.map]
                rw [setSubifs_jobj heo]
                unfold workSt
                simp
    · have e1 : cfRefStep e name ⟨res, cur0⟩ r = some (⟨res, cur0⟩ : CState) := by
        unfold cfRefStep
        rw [if_neg hm]
      have e2 : matchingRefs (r :: rest) name = matchingRefs rest name := by
        unfold matchingRefs
        simp [List.filter_cons, hm]
      rw [e1, e2]
      dsimp only [Option.bind]
      exact ih

theorem entryName_decompose {e : JValue} {name : String}
    (hn : entryName e = some name) : getField e "name" = some (.jstr name) := by
  unfold entryName at hn
  cases h : getField e "name" with
  | none =>
    rw [h] at hn
    exact absurd hn (by simp)
  | some nv =>
    rw [h] at hn
    dsimp only [Option.bind] at hn
    cases nv <;> simp [asStr] at hn
    subst hn
    rfl

/-- Processing one entry whose name is not yet a key of the result dict:
the entry produces its record (appended at the end, with interf moved to
it) exactly when its name contains ethernet or matches a reference. -/
theorem cfEntryStep_fresh {refs : List Interface} {st : CState} {e : JValue}
    {name : String} (hn : entryName e = some name)
    (habs : getKey st.result name = none) :
    cfEntryStep refs st e = (cfEntrySpec refs e).map (fun orec =>
      match orec with
      | some rec => (⟨st.result ++ [(name, rec)], some name⟩ : CState)
      | none => st) := by
  obtain ⟨res, cur⟩ := st
  dsimp only at habs
  have hgf := entryName_decompose hn
  unfold cfEntryStep cfEntrySpec
  rw [hgf, hn]
  dsimp only [Option.bind, asStr]
  by_cases heth : strHas name "ethernet"
  · have hprod : producesRec refs name = true := by
      simp [producesRec, heth]
    rw [if_pos heth, if_pos hprod]
    cases heo : asObj e with
    | none =>
      rw [setSubifs_none heo]
      have hrec : cfRecordM e (matchingRefs refs name) = none := by
        unfold cfRecordM
        cases optMapM (entryRefBlock e) (matchingRefs refs name) with
        | none => rfl
        | some blocks => exact setSubifs_none heo _
      rw [hrec]
      rfl
    | some eo =>
      rw [setSubifs_jobj heo]
      dsimp only [Option.map, Option.bind]
      have hws : (⟨setKey res name (.jobj (setKey eo "subinterface" (.jarr []))),
          some name⟩ : CState) = workSt res name eo [] := by
        unfold workSt
        rw [setKey_absent habs]
      rw [hws, cfRefFold_created refs habs e eo []]
      unfold cfRecordM
      cases optMapM (entryRefBlock e) (matchingRefs refs name) with
      | none => rfl
      | some blocks =>
        dsimp only [Option.bind, Option.map]
        rw [setSubifs_jobj heo]
        unfold workSt
        simp
  · have hprod : producesRec refs name =
        refs.any (fun r => name = r.interface_name) := by
      simp [producesRec, heth]
    rw [if_neg heth]
    dsimp only [Option.bind]
    rw [cfRefFold_not_created refs cur habs e]
    by_cases hany : refs.any (fun r => name = r.interface_name)
    · have hne : ¬ matchingRefs refs name = [] := by
        simp only [matchingRefs, ne_eq, List.filter_eq_nil_iff]
        simp only [List.any_eq_true] at hany
        obtain ⟨r, hr, hrn⟩ := hany
        intro hnil
        exact (hnil r hr) hrn
      rw [if_neg hne, hprod, if_pos hany]
      cases cfRecordM e (matchingRefs refs name) with
      | none => rfl
      | some rec => rfl
    · have heq : matchingRefs refs name = [] := by
        simp only [matchingRefs, List.filter_eq_nil_iff]
        intro r hr hrn
        exact hany (List.any_eq_true.mpr ⟨r, hr, hrn⟩)
      rw [if_pos heq, hprod, if_neg hany]
      rfl

/-- Pairs of names and produced records over one pass. -/
def specPairs (ns : List String) (l : List (Option JValue)) :
    List (String × JValue) :=
  (ns.zip l).filterMap (fun q => q.2.map (fun rec => (q.1, rec)))

/-- Final interf key after one pass. -/
def specCur (ns : List String) (l : List (Option JValue))
    (cur : Option String) : Option String :=
  (ns.zip l).foldl (fun c q => if q.2.isSome then some q.1 else c) cur

/-- Folding the consolidating loop over entries with pairwise-distinct
names, all absent from the current result dict, appends one pair per
producing entry in entry order. -/
theorem cfFold_fresh {refs : List Interface} {entries : List JValue}
    {ns : List String} (hns : optMapM entryName entries = some ns)
    (hnodup : ns.Nodup) (res : List (String × JValue)) (cur : Option String)
    (hfresh : ∀ n ∈ ns, getKey res n = none) :
    optFoldlM (cfEntryStep refs) ⟨res, cur⟩ entries =
      (optMapM (cfEntrySpec refs) entries).map (fun l =>
        ⟨res ++ specPairs ns l, specCur ns l cur⟩) := by
  induction entries generalizing ns res cur with
  | nil =>
    simp only [optMapM_nil, Option.some_inj] at hns
    subst hns
    simp [specPairs, specCur]
  | cons e rest ih =>
    rw [optMapM_cons] at hns
    cases hne : entryName e with
    | none => simp [hne] at hns
    | some n =>
      rw [hne] at hns
      cases hrest : optMapM entryName rest with
      | none => simp [hrest] at hns
      | some ms =>
        rw [hrest] at hns
        simp at hns
        subst hns
        simp only [List.nodup_cons] at hnodup
        obtain ⟨hnotin, hnd⟩ := hnodup
        have habs : getKey res n = none :=
          hfresh n (List.mem_cons_self n ms)
        rw [optFoldlM_cons, optMapM_cons,
          cfEntryStep_fresh hne habs]
        cases hspec : cfEntrySpec refs e with
        | none => rfl
        | some orec =>
          dsimp only [Option.bind, Option.map]
          cases orec with
          | none =>
            rw [ih hrest hnd res cur
              (fun m hm => hfresh m (List.mem_cons_of_mem n hm))]
            cases optMapM (cfEntrySpec refs) rest with
            | none => rfl
            | some l => simp [specPairs, specCur]
          | some rec =>
            have hfresh' : ∀ m ∈ ms, getKey (res ++ [(n, rec)]) m = none := by
              intro m hm
              rw [getKey_append_right (hfresh m (List.mem_cons_of_mem n hm))]
              have : ¬ n = m := fun he => hnotin (he ▸ hm)
              simp [getKey, this]
            rw [ih hrest hnd (res ++ [(n, rec)]) (some n) hfresh']
            cases optMapM (cfEntrySpec refs) rest with
            | none => rfl
            | some l => simp [specPairs, specCur]

/-- Record values of the produced pairs are the produced records. -/
theorem specPairs_snd {ns : List String} {l : List (Option JValue)}
    (hlen : ns.length = l.length) :
    (specPairs ns l).map Prod.snd = l.filterMap id := by
  induction ns generalizing l with
  | nil =>
    cases l with
    | nil => rfl
    | cons o l => simp at hlen
  | cons n ns ih =>
    cases l with
    | nil => simp at hlen
    | cons o l =>
      simp only [List.length_cons, Nat.succ_inj] at hlen
      unfold specPairs
      rw [List.zip_cons_cons, List.filterMap_cons]
      cases o with
      | none => simpa [specPairs] using ih hlen
      | some rec => simpa [specPairs] using ih hlen

/-- Characterization of the consolidating interface pruning for documents
whose top-level interface records carry pairwise-distinct names: the
output list contains, in original entry order, one record per entry whose
name contains ethernet or matches an in-use reference, built as a deep
copy whose subinterface list is the concatenation of the unit-matching
subinterfaces over the matching references in list order. -/
theorem remove_interfaces_cf_characterization (refs : List Interface)
    (o : List (String × JValue)) (entries : List JValue) (ns : List String)
    (hif : getKey o "interface" = some (.jarr entries))
    (hns : optMapM entryName entries = some ns)
    (hnodup : ns.Nodup) :
    remove_interfaces_cf refs (.jobj o) =
      (cfSpec refs entries).map
        (fun out => .jobj (setKey o "interface" (.jarr out))) := by
  have e : remove_interfaces_cf refs (.jobj o) =
      (getKey o "interface").bind fun iv =>
        (asArr iv).bind fun entries =>
          (optFoldlM (cfEntryStep refs) ⟨[], none⟩ entries).map fun st =>
            .jobj (setKey o "interface" (.jarr (st.result.map Prod.snd))) := rfl
  rw [e, hif]
  show (optFoldlM (cfEntryStep refs) ⟨[], none⟩ entries).map _ = _
  rw [cfFold_fresh hns hnodup [] none (fun n _ => rfl)]
  unfold cfSpec
  cases hl : optMapM (cfEntrySpec refs) entries with
  | none => rfl
  | some l =>
    dsimp only [Option.map]
    have hlen : ns.length = l.length := by
      rw [optMapM_length hns, optMapM_length hl]
    rw [List.nil_append, specPairs_snd hlen]

/-! ## Claim C10: origin of subinterfaces in consolidating mode -/

theorem filtIdx_mem {u : Int} {sl kept : List JValue}
    (h : filtIdx u sl = some kept) {x : JValue} (hx : x ∈ kept) :
    x ∈ sl ∧ ∃ iv, getField x "index" = some iv ∧ pyEqInt iv u = true := by
  induction sl generalizing kept with
  | nil =>
    unfold filtIdx at h
    simp at h
    subst h
    cases hx
  | cons s rest ih =>
    unfold filtIdx at h
    cases hn : getField s "index" with
    | none =>
      rw [hn] at h
      simp at h
    | some iv =>
      rw [hn] at h
      dsimp only [Option.bind] at h
      cases hr : filtIdx u rest with
      | none =>
        rw [hr] at h
        simp at h
      | some tail =>
        rw [hr] at h
        simp at h
        subst h
        by_cases hm : pyEqInt iv u
        · rw [if_pos hm] at hx
          rcases hx with _ | hx2
          · exact ⟨List.mem_cons_self _ _, iv, hn, hm⟩
          · obtain ⟨hmem, hiv⟩ := ih hr (by assumption)
            exact ⟨List.mem_cons_of_mem _ hmem, hiv⟩
        · rw [if_neg hm] at hx
          obtain ⟨hmem, hiv⟩ := ih hr hx
          exact ⟨List.mem_cons_of_mem s hmem, hiv⟩

/-- A successful optMapM maps members to members. -/
theorem optMapM_mem_of_mem {f : α → Option β} {l : List α} {ys : List β}
    (h : optMapM f l = some ys) {a : α} (ha : a ∈ l) :
    ∃ y ∈ ys, f a = some y := by
  induction l generalizing ys with
  | nil => cases ha
  | cons x rest ih =>
    rw [optMapM_cons] at h
    cases hx : f x with
    | none => simp [hx] at h
    | some b =>
      rw [hx] at h
      cases hr : optMapM f rest with
      | none => simp [hr] at h
      | some bs =>
        rw [hr] at h
        simp at h
        subst h
        rcases ha with _ | ha2
        · exact ⟨b, List.mem_cons_self b bs, hx⟩
        · obtain ⟨y, hy, hfy⟩ := ih hr (by assumption)
          exact ⟨y, List.mem_cons_of_mem b hy, hfy⟩

/-- C10.  In consolidating mode, when the top-level interface records
have pairwise-distinct names, every subinterface of every output record
comes from the original record bearing the same name, and its index
equals the unit of some in-use reference naming that interface. -/
theorem cf_subinterface_origin (refs : List Interface)
    (o : List (String × JValue)) (entries : List JValue) (ns : List String)
    (doc' : JValue)
    (hif : getKey o "interface" = some (.jarr entries))
    (hns : optMapM entryName entries = some ns)
    (hnodup : ns.Nodup)
    (hrun : remove_interfaces_cf refs (.jobj o) = some doc') :
    ∀ out, getField doc' "interface" = some (.jarr out) →
    ∀ R ∈ out, ∀ rsubs, getField R "subinterface" = some (.jarr rsubs) →
    ∀ sub ∈ rsubs, ∃ name E esubs,
      getField R "name" = some (.jstr name) ∧
      E ∈ entries ∧
      getField E "name" = some (.jstr name) ∧
      getField E "subinterface" = some (.jarr esubs) ∧
      sub ∈ esubs ∧
      ∃ r ∈ refs, r.interface_name = name ∧
        ∃ iv, getField sub "index" = some iv ∧ pyEqInt iv r.unit = true := by
  intro out hout R hR rsubs hrsubs sub hsub
  rw [remove_interfaces_cf_characterization refs o entries ns hif hns hnodup]
    at hrun
  cases hspec : cfSpec refs entries with
  | none => rw [hspec] at hrun; exact absurd hrun (by simp)
  | some out0 =>
    rw [hspec] at hrun
    simp at hrun
    subst hrun
    unfold getField at hout
    dsimp only [asObj, Option.bind] at hout
    rw [getKey_setKey_self] at hout
    have hout0 : out = out0 := by
      have := hout
      simp at this
      exact this.symm
    subst hout0
    unfold cfSpec at hspec
    cases hl : optMapM (cfEntrySpec refs) entries with
    | none => rw [hl] at hspec; exact absurd hspec (by simp)
    | some l =>
      rw [hl] at hspec
      simp at hspec
      subst hspec
      rw [List.mem_filterMap] at hR
      obtain ⟨orec, horec, hid⟩ := hR
      have horecR : orec = some R := by
        cases orec with
        | none =>
          simp only [id_eq] at hid
          exact absurd hid (by simp)
        | some v =>
          simp only [id_eq] at hid
          exact hid
      subst horecR
      obtain ⟨E, hE, hEspec⟩ := optMapM_mem hl horec
      unfold cfEntrySpec at hEspec
      cases hnameE : entryName E with
      | none =>
        rw [hnameE] at hEspec
        exact absurd hEspec (by simp)
      | some nameE =>
        rw [hnameE] at hEspec
        dsimp only [Option.bind] at hEspec
        by_cases hprod : producesRec refs nameE
        · rw [if_pos hprod] at hEspec
          cases hrec : cfRecordM E (matchingRefs refs nameE) with
          | none =>
            rw [hrec] at hEspec
            exact absurd hEspec (by simp)
          | some R0 =>
            rw [hrec] at hEspec
            have hR0R : R0 = R := by simpa using hEspec
            rw [hR0R] at hrec
            unfold cfRecordM at hrec
            cases hblocks : optMapM (entryRefBlock E) (matchingRefs refs nameE) with
            | none =>
              rw [hblocks] at hrec
              exact absurd hrec (by simp)
            | some blocks =>
              rw [hblocks] at hrec
              dsimp only [Option.bind] at hrec
              unfold setSubifs at hrec
              cases heo : asObj E with
              | none =>
                rw [heo] at hrec
                exact absurd hrec (by simp)
              | some eo =>
                rw [heo] at hrec
                simp at hrec
                have hRsub : getField R "subinterface" =
                    some (.jarr blocks.flatten) := by
                  rw [← hrec]
                  unfold getField
                  dsimp only [asObj, Option.bind]
                  rw [getKey_setKey_self]
                have hrsubs' : rsubs = blocks.flatten := by
                  rw [hRsub] at hrsubs
                  simp at hrsubs
                  exact hrsubs.symm
                subst hrsubs'
                have hEobj : E = .jobj eo := by
                  cases E <;> simp [asObj] at heo
                  rw [heo]
                have hRname : getField R "name" = some (.jstr nameE) := by
                  rw [← hrec]
                  unfold getField
                  dsimp only [asObj, Option.bind]
                  rw [getKey_setKey_ne _ _ (by decide)]
                  have := entryName_decompose hnameE
                  rw [hEobj] at this
                  unfold getField at this
                  dsimp only [asObj, Option.bind] at this
                  exact this
                obtain ⟨block, hblockmem, hsubblock⟩ :=
                  List.mem_flatten.mp hsub
                obtain ⟨r, hrmem, hrblock⟩ := optMapM_mem hblocks hblockmem
                have hrrefs : r ∈ refs ∧ nameE = r.interface_name := by
                  have := List.mem_filter.mp hrmem
                  exact ⟨this.1, by simpa using this.2⟩
                unfold entryRefBlock at hrblock
                cases hsv : getField E "subinterface" with
                | none =>
                  rw [hsv] at hrblock
                  exact absurd hrblock (by simp)
                | some sv =>
                  rw [hsv] at hrblock
                  dsimp only [Option.bind] at hrblock
                  cases hsl : asArr sv with
                  | none =>
                    rw [hsl] at hrblock
                    exact absurd hrblock (by simp)
                  | some esubs =>
                    rw [hsl] at hrblock
                    dsimp only [Option.bind] at hrblock
                    obtain ⟨hsubmem, iv, hiv, hivm⟩ :=
                      filtIdx_mem hrblock hsubblock
                    have hsvarr : sv = .jarr esubs := by
                      cases sv <;> simp [asArr] at hsl
                      rw [hsl]
                    refine ⟨nameE, E, esubs, hRname, hE,
                      entryName_decompose hnameE, ?_, hsubmem,
                      r, hrrefs.1, hrrefs.2.symm, iv, hiv, hivm⟩
                    rw [hsv, hsvarr]
        · rw [if_neg hprod] at hEspec
          exact absurd hEspec (by simp)

/-- Interface entry used by the origin witness. -/
def c10E : JValue :=
  .jobj [("name", .jstr "irb0"),
         ("subinterface", .jarr [.jobj [("index", .jint 1)]])]

/-- Document object used by the origin witness. -/
def c10O : List (String × JValue) := [("interface", .jarr [c10E])]

/-- C10 witness: the origin theorem applied to a one-entry document whose
single kept subinterface originates from the irb0 record at unit one. -/
theorem cf_subinterface_origin_witness :
    ∃ name E esubs,
      getField c10E "name" = some (.jstr name) ∧
      E ∈ [c10E] ∧
      getField E "name" = some (.jstr name) ∧
      getField E "subinterface" = some (.jarr esubs) ∧
      (JValue.jobj [("index", .jint 1)]) ∈ esubs ∧
      ∃ r ∈ [(⟨"irb0", 1⟩ : Interface)], r.interface_name = name ∧
        ∃ iv, getField (JValue.jobj [("index", .jint 1)]) "index" = some iv ∧
          pyEqInt iv r.unit = true :=
  cf_subinterface_origin [⟨"irb0", 1⟩] c10O [c10E] ["irb0"] (.jobj c10O)
    rfl rfl (by simp) rfl [c10E] rfl c10E (List.mem_cons_self _ _)
    [.jobj [("index", .jint 1)]] rfl (.jobj [("index", .jint 1)])
    (List.mem_cons_self _ _)

/-! ## Claim C6: general properties of the consolidating mode

The at-most-one-record-per-name property and the first-encounter output
order hold for every document, duplicate names included, because the
result dict is keyed by name.  They are proved through an invariant over
the loop state: every stored record is an object whose name field equals
its key. -/

/-- Insert a name if it is not present yet, keeping first-encounter
order. -/
def dedupIns (acc : List String) (x : String) : List String :=
  if x ∈ acc then acc else acc ++ [x]

/-- Invariant of the consolidating loop: every stored record is an object
carrying its key as name. -/
def CInv (st : CState) : Prop :=
  ∀ kv ∈ st.result, ∃ vo, kv.2 = JValue.jobj vo ∧
    getKey vo "name" = some (.jstr kv.1)

theorem getKey_mem {o : List (String × JValue)} {k : String} {v : JValue}
    (h : getKey o k = some v) : (k, v) ∈ o := by
  induction o with
  | nil => simp [getKey] at h
  | cons kv rest ih =>
    obtain ⟨k0, v0⟩ := kv
    rw [getKey_cons] at h
    by_cases hk : k0 = k
    · subst hk
      simp at h
      subst h
      exact List.mem_cons_self _ _
    · simp [hk] at h
      exact List.mem_cons_of_mem _ (ih h)

theorem mem_setKey {o : List (String × JValue)} {k k' : String} {v v' : JValue}
    (h : (k', v') ∈ setKey o k v) : (k', v') ∈ o ∨ (k' = k ∧ v' = v) := by
  induction o with
  | nil =>
    simp [setKey] at h
    exact Or.inr h
  | cons kv rest ih =>
    obtain ⟨k0, v0⟩ := kv
    rw [setKey_cons] at h
    by_cases hk : k0 = k
    · simp [hk] at h
      rcases h with ⟨h1, h2⟩ | h2
      · exact Or.inr ⟨h1, h2⟩
      · exact Or.inl (List.mem_cons_of_mem _ h2)
    · simp [hk] at h
      rcases h with ⟨h1, h2⟩ | h2
      · exact Or.inl (by simp [h1, h2])
      · rcases ih h2 with h3 | h3
        · exact Or.inl (List.mem_cons_of_mem _ h3)
        · exact Or.inr h3

/-- Keys and membership agree on dicts. -/
theorem getKey_isSome_iff {o : List (String × JValue)} {k : String} :
    (getKey o k).isSome = true ↔ k ∈ o.map Prod.fst := by
  induction o with
  | nil => simp [getKey]
  | cons kv rest ih =>
    obtain ⟨k0, v0⟩ := kv
    rw [getKey_cons]
    by_cases hk : k0 = k
    · subst hk
      simp
    · simp [hk, ih, Ne.symm hk]

theorem mem_dedupIns (l : List String) (x : String) : x ∈ dedupIns l x := by
  by_cases h : x ∈ l <;> simp [dedupIns, h]

theorem dedupIns_mem {l : List String} {x : String} (h : x ∈ l) :
    dedupIns l x = l := by
  simp [dedupIns, h]

theorem dedupIns_idem (l : List String) (x : String) :
    dedupIns (dedupIns l x) x = dedupIns l x :=
  dedupIns_mem (mem_dedupIns l x)

theorem dedupIns_nodup {l : List String} (h : l.Nodup) (x : String) :
    (dedupIns l x).Nodup := by
  by_cases hm : x ∈ l
  · simpa [dedupIns, hm] using h
  · simp [dedupIns, hm]
    simp [List.nodup_append, h, hm]

theorem foldl_dedupIns_nodup (names : List String) :
    ∀ {base : List String}, base.Nodup → (names.foldl dedupIns base).Nodup := by
  induction names with
  | nil => intro base h; exact h
  | cons n rest ih =>
    intro base h
    exact ih (dedupIns_nodup h n)

/-- Appending a subinterface to the record interf points at preserves the
invariant, the keys and the current key. -/
theorem appendSubif_keys {st st' : CState} {x : JValue}
    (h : appendSubif st x = some st') (hinv : CInv st) :
    CInv st' ∧ st'.result.map Prod.fst = st.result.map Prod.fst ∧
      st'.cur = st.cur := by
  obtain ⟨res, cur⟩ := st
  unfold appendSubif at h
  dsimp only at h
  cases cur with
  | none => exact absurd h (by simp)
  | some key =>
    dsimp only [Option.bind] at h
    cases hg : getKey res key with
    | none =>
      rw [hg] at h
      exact absurd h (by simp)
    | some rec =>
      rw [hg] at h
      dsimp only [Option.bind] at h
      cases hro : asObj rec with
      | none =>
        rw [hro] at h
        exact absurd h (by simp)
      | some ro =>
        rw [hro] at h
        dsimp only [Option.bind] at h
        cases hsv : getKey ro "subinterface" with
        | none =>
          rw [hsv] at h
          exact absurd h (by simp)
        | some sv =>
          rw [hsv] at h
          dsimp only [Option.bind] at h
          cases hsl : asArr sv with
          | none =>
            rw [hsl] at h
            exact absurd h (by simp)
          | some sl =>
            rw [hsl] at h
            simp at h
            subst h
            refine ⟨?_, map_fst_setKey hg _, rfl⟩
            intro kv hkv
            obtain ⟨k', v'⟩ := kv
            dsimp only at hkv
            rcases mem_setKey hkv with hmem | ⟨hk, hv⟩
            · exact hinv (k', v') hmem
            · obtain ⟨vo, hvo, hnamef⟩ := hinv (key, rec) (getKey_mem hg)
              dsimp only at hvo hnamef
              have hrovo : ro = vo := by
                rw [hvo] at hro
                have := hro
                simp [asObj] at this
                exact this.symm
              subst hk
              refine ⟨setKey ro "subinterface" (.jarr (sl ++ [x])), hv, ?_⟩
              rw [getKey_setKey_ne _ _ (by decide), hrovo]
              exact hnamef

/-- One subinterface step preserves the invariant and the keys. -/
theorem cfSubifStep_keys {u : Int} {st st' : CState} {x : JValue}
    (h : cfSubifStep u st x = some st') (hinv : CInv st) :
    CInv st' ∧ st'.result.map Prod.fst = st.result.map Prod.fst := by
  unfold cfSubifStep at h
  cases hn : getField x "index" with
  | none =>
    rw [hn] at h
    exact absurd h (by simp)
  | some iv =>
    rw [hn] at h
    dsimp only [Option.bind] at h
    by_cases hm : pyEqInt iv u
    · rw [if_pos hm] at h
      obtain ⟨h1, h2, _⟩ := appendSubif_keys h hinv
      exact ⟨h1, h2⟩
    · rw [if_neg hm] at h
      simp at h
      subst h
      exact ⟨hinv, rfl⟩

/-- Success-conditioned preservation through a fallible left fold. -/
theorem optFoldlM_inv {σ α : Type} {P : σ → Prop} {f : σ → α → Option σ}
    (hstep : ∀ s a s', f s a = some s' → P s → P s') :
    ∀ {l : List α} {s s' : σ}, optFoldlM f s l = some s' → P s → P s' := by
  intro l
  induction l with
  | nil =>
    intro s s' h hP
    simp at h
    subst h
    exact hP
  | cons a rest ih =>
    intro s s' h hP
    rw [optFoldlM_cons] at h
    cases hfa : f s a with
    | none =>
      rw [hfa] at h
      exact absurd h (by simp)
    | some t =>
      rw [hfa] at h
      exact ih h (hstep s a t hfa hP)

/-- One reference step: on a name match the name joins the keys (if not
already there), otherwise nothing changes. -/
theorem cfRefStep_keys {e : JValue} {name : String} {st st' : CState}
    {r : Interface} (h : cfRefStep e name st r = some st') (hinv : CInv st)
    (hname : getField e "name" = some (.jstr name)) :
    CInv st' ∧ st'.result.map Prod.fst =
      (if name = r.interface_name then dedupIns (st.result.map Prod.fst) name
       else st.result.map Prod.fst) := by
  unfold cfRefStep at h
  by_cases hm : name = r.interface_name
  · rw [if_pos hm] at h
    rw [if_pos hm]
    cases hg : getKey st.result name with
    | some rec0 =>
      have hmemk : name ∈ st.result.map Prod.fst :=
        getKey_isSome_iff.mp (by simp [hg])
      rw [hg] at h
      dsimp only [Option.isSome] at h
      rw [if_pos rfl] at h
      dsimp only [Option.bind] at h
      cases hsv : getField e "subinterface" with
      | none =>
        rw [hsv] at h
        exact absurd h (by simp)
      | some sv =>
        rw [hsv] at h
        dsimp only [Option.bind] at h
        cases hsl : asArr sv with
        | none =>
          rw [hsl] at h
          exact absurd h (by simp)
        | some sl =>
          rw [hsl] at h
          dsimp only [Option.bind] at h
          have := optFoldlM_inv
            (P := fun s => CInv s ∧ s.result.map Prod.fst = st.result.map Prod.fst)
            (fun s a s' hs hP => by
              obtain ⟨h1, h2⟩ := cfSubifStep_keys hs hP.1
              exact ⟨h1, h2.trans hP.2⟩) h ⟨hinv, rfl⟩
          rw [dedupIns_mem hmemk]
          exact this
    | none =>
      rw [hg] at h
      dsimp only [Option.isSome] at h
      rw [if_neg (by simp)] at h
      cases hset : setSubifs e [] with
      | none =>
        rw [hset] at h
        exact absurd h (by simp)
      | some rec0 =>
        rw [hset] at h
        dsimp only [Option.map, Option.bind] at h
        cases hsv : getField e "subinterface" with
        | none =>
          rw [hsv] at h
          exact absurd h (by simp)
        | some sv =>
          rw [hsv] at h
          dsimp only [Option.bind] at h
          cases hsl : asArr sv with
          | none =>
            rw [hsl] at h
            exact absurd h (by simp)
          | some sl =>
            rw [hsl] at h
            dsimp only [Option.bind] at h
            have hnotmem : name ∉ st.result.map Prod.fst := by
              intro hmem
              have := getKey_isSome_iff.mpr hmem
              rw [hg] at this
              exact absurd this (by simp)
            have heo : ∃ eo, asObj e = some eo ∧
                rec0 = .jobj (setKey eo "subinterface" (.jarr [])) := by
              unfold setSubifs at hset
              cases he : asObj e with
              | none => rw [he] at hset; exact absurd hset (by simp)
              | some eo =>
                rw [he] at hset
                simp at hset
                exact ⟨eo, rfl, hset.symm⟩
            obtain ⟨eo, he, hrec0⟩ := heo
            have hinv1 : CInv ⟨setKey st.result name rec0, some name⟩ := by
              intro kv hkv
              obtain ⟨k', v'⟩ := kv
              dsimp only at hkv
              rcases mem_setKey hkv with hmem | ⟨hk, hv⟩
              · exact hinv (k', v') hmem
              · subst hk
                refine ⟨setKey eo "subinterface" (.jarr []), by simp [hv, hrec0], ?_⟩
                rw [getKey_setKey_ne _ _ (by decide)]
                have : getField e "name" = getKey eo "name" := by
                  unfold getField
                  rw [he]
                  rfl
                rw [← this, hname]
            have hkeys1 : (setKey st.result name rec0).map Prod.fst =
                dedupIns (st.result.map Prod.fst) name := by
              rw [setKey_absent hg, dedupIns, if_neg hnotmem]
              simp
            have := optFoldlM_inv
              (P := fun s => CInv s ∧ s.result.map Prod.fst =
                dedupIns (st.result.map Prod.fst) name)
              (fun s a s' hs hP => by
                obtain ⟨h1, h2⟩ := cfSubifStep_keys hs hP.1
                exact ⟨h1, h2.trans hP.2⟩) h ⟨hinv1, hkeys1⟩
            exact this
  · rw [if_neg hm] at h
    rw [if_neg hm]
    simp at h
    subst h
    exact ⟨hinv, rfl⟩

/-- The reference loop adds the entry name to the keys exactly when some
reference matches it. -/
theorem cfRefFold_keys {e : JValue} {name : String} (refs : List Interface)
    {st st' : CState}
    (h : optFoldlM (cfRefStep e name) st refs = some st') (hinv : CInv st)
    (hname : getField e "name" = some (.jstr name)) :
    CInv st' ∧ st'.result.map Prod.fst =
      (if refs.any (fun r => name = r.interface_name)
       then dedupIns (st.result.map Prod.fst) name
       else st.result.map Prod.fst) := by
  induction refs generalizing st with
  | nil =>
    simp at h
    subst h
    simp [hinv]
  | cons r rest ih =>
    rw [optFoldlM_cons] at h
    cases hstep : cfRefStep e name st r with
    | none =>
      rw [hstep] at h
      exact absurd h (by simp)
    | some st1 =>
      rw [hstep] at h
      obtain ⟨hinv1, hkeys1⟩ := cfRefStep_keys hstep hinv hname
      obtain ⟨hinvF, hkeysF⟩ := ih h hinv1
      refine ⟨hinvF, ?_⟩
      rw [hkeysF, hkeys1]
      by_cases hm : name = r.interface_name
      · rw [if_pos hm, if_pos (show (r :: rest).any
            (fun x => name = x.interface_name) = true by simp [hm])]
        by_cases hany : rest.any (fun x => name = x.interface_name) = true
        · rw [if_pos hany, dedupIns_idem]
        · rw [if_neg hany]
      · rw [if_neg hm, show ((r :: rest).any (fun x => name = x.interface_name))
            = rest.any (fun x => name = x.interface_name) by simp [hm]]

/-- One entry step: the entry name joins the keys exactly when the entry
produces a record. -/
theorem cfEntryStep_keys {refs : List Interface} {st st' : CState}
    {e : JValue} (h : cfEntryStep refs st e = some st') (hinv : CInv st) :
    CInv st' ∧ ∃ name, entryName e = some name ∧
      st'.result.map Prod.fst =
        (if producesRec refs name then dedupIns (st.result.map Prod.fst) name
         else st.result.map Prod.fst) := by
  unfold cfEntryStep at h
  cases hgf : getField e "name" with
  | none =>
    rw [hgf] at h
    exact absurd h (by simp)
  | some nv =>
    rw [hgf] at h
    dsimp only [Option.bind] at h
    cases hnv : asStr nv with
    | none =>
      rw [hnv] at h
      exact absurd h (by simp)
    | some name =>
      rw [hnv] at h
      dsimp only [Option.bind] at h
      have hname : getField e "name" = some (.jstr name) := by
        cases nv <;> simp [asStr] at hnv
        rw [hgf, hnv]
      have hen : entryName e = some name := by
        unfold entryName
        rw [hgf]
        dsimp only [Option.bind]
        exact hnv
      by_cases heth : strHas name "ethernet"
      · rw [if_pos heth] at h
        cases hset : setSubifs e [] with
        | none =>
          rw [hset] at h
          exact absurd h (by simp)
        | some rec0 =>
          rw [hset] at h
          dsimp only [Option.map, Option.bind] at h
          have heo : ∃ eo, asObj e = some eo ∧
              rec0 = .jobj (setKey eo "subinterface" (.jarr [])) := by
            unfold setSubifs at hset
            cases he : asObj e with
            | none => rw [he] at hset; exact absurd hset (by simp)
            | some eo =>
              rw [he] at hset
              simp at hset
              exact ⟨eo, rfl, hset.symm⟩
          obtain ⟨eo, he, hrec0⟩ := heo
          have hinv1 : CInv ⟨setKey st.result name rec0, some name⟩ := by
            intro kv hkv
            obtain ⟨k', v'⟩ := kv
            dsimp only at hkv
            rcases mem_setKey hkv with hmem | ⟨hk, hv⟩
            · exact hinv (k', v') hmem
            · subst hk
              refine ⟨setKey eo "subinterface" (.jarr []), by simp [hv, hrec0], ?_⟩
              rw [getKey_setKey_ne _ _ (by decide)]
              have he2 : getField e "name" = getKey eo "name" := by
                unfold getField
                rw [he]
                rfl
              rw [← he2, hname]
          have hkeys1 : (setKey st.result name rec0).map Prod.fst =
              dedupIns (st.result.map Prod.fst) name := by
            by_cases hmem : name ∈ st.result.map Prod.fst
            · rw [dedupIns_mem hmem]
              obtain ⟨w, hw⟩ := Option.isSome_iff_exists.mp
                (getKey_isSome_iff.mpr hmem)
              exact map_fst_setKey hw _
            · have hg : getKey st.result name = none := by
                cases hg2 : getKey st.result name with
                | none => rfl
                | some w =>
                  exact absurd (getKey_isSome_iff.mp (by simp [hg2])) hmem
              rw [setKey_absent hg, dedupIns, if_neg hmem]
              simp
          obtain ⟨hinvF, hkeysF⟩ := cfRefFold_keys refs h hinv1 hname
          refine ⟨hinvF, name, hen, ?_⟩
          rw [hkeysF]
          have hprod : producesRec refs name = true := by
            simp [producesRec, heth]
          rw [if_pos hprod]
          dsimp only
          rw [hkeys1]
          by_cases hany : refs.any (fun x => name = x.interface_name) = true
          · rw [if_pos hany, dedupIns_idem]
          · rw [if_neg hany]
      · rw [if_neg heth] at h
        dsimp only [Option.bind] at h
        obtain ⟨hinvF, hkeysF⟩ := cfRefFold_keys refs h hinv hname
        refine ⟨hinvF, name, hen, ?_⟩
        rw [hkeysF]
        have hprod : producesRec refs name =
            refs.any (fun x => name = x.interface_name) := by
          simp [producesRec, heth]
        rw [hprod]

/-- The consolidating loop over all entries: the final keys are the
first-encounter deduplication of the names of the producing entries, in
scan order. -/
theorem cfFold_keys {refs : List Interface} {entries : List JValue}
    {ns : List String} (hns : optMapM entryName entries = some ns)
    {st st' : CState}
    (h : optFoldlM (cfEntryStep refs) st entries = some st') (hinv : CInv st) :
    CInv st' ∧ st'.result.map Prod.fst =
      (ns.filter (producesRec refs)).foldl dedupIns (st.result.map Prod.fst) := by
  induction entries generalizing ns st with
  | nil =>
    simp only [optMapM_nil, Option.some_inj] at hns
    subst hns
    simp at h
    subst h
    exact ⟨hinv, rfl⟩
  | cons e rest ih =>
    rw [optMapM_cons] at hns
    cases hne : entryName e with
    | none => simp [hne] at hns
    | some n =>
      rw [hne] at hns
      cases hrest : optMapM entryName rest with
      | none => simp [hrest] at hns
      | some ms =>
        rw [hrest] at hns
        simp at hns
        subst hns
        rw [optFoldlM_cons] at h
        cases hstep : cfEntryStep refs st e with
        | none =>
          rw [hstep] at h
          exact absurd h (by simp)
        | some st1 =>
          rw [hstep] at h
          obtain ⟨hinv1, name, hname, hkeys1⟩ := cfEntryStep_keys hstep hinv
          have hnn : name = n := by
            rw [hne] at hname
            simpa using hname.symm
          subst hnn
          obtain ⟨hinvF, hkeysF⟩ := ih hrest h hinv1
          refine ⟨hinvF, ?_⟩
          rw [hkeysF, hkeys1, List.filter_cons]
          by_cases hprod : producesRec refs name = true
          · rw [if_pos hprod, if_pos (by simp [hprod])]
            rfl
          · rw [if_neg hprod, if_neg (by simp [hprod])]

/-- The values of a dict satisfying the invariant carry the keys as
names. -/
theorem result_names {res : List (String × JValue)}
    (hinv : ∀ kv ∈ res, ∃ vo, kv.2 = JValue.jobj vo ∧
      getKey vo "name" = some (.jstr kv.1)) :
    optMapM entryName (res.map Prod.snd) = some (res.map Prod.fst) := by
  induction res with
  | nil => rfl
  | cons kv rest ih =>
    obtain ⟨k, v⟩ := kv
    obtain ⟨vo, hvo, hnamef⟩ := hinv (k, v) (List.mem_cons_self _ _)
    dsimp only at hvo hnamef
    subst hvo
    have hen : entryName (JValue.jobj vo) = some k := by
      unfold entryName getField
      dsimp only [asObj, Option.bind]
      rw [hnamef]
      rfl
    rw [List.map_cons, List.map_cons, optMapM_cons, hen,
      ih (fun kv2 hkv2 => hinv kv2 (List.mem_cons_of_mem _ hkv2))]
    rfl

/-- A successful optMapM computes each aligned pair of the zip. -/
theorem optMapM_zip {f : α → Option β} {l : List α} {ys : List β}
    (h : optMapM f l = some ys) :
    ∀ p ∈ l.zip ys, f p.1 = some p.2 := by
  induction l generalizing ys with
  | nil =>
    intro p hp
    simp at h
    subst h
    cases hp
  | cons a rest ih =>
    intro p hp
    rw [optMapM_cons] at h
    cases hfa : f a with
    | none => simp [hfa] at h
    | some b =>
      rw [hfa] at h
      cases hr : optMapM f rest with
      | none => simp [hr] at h
      | some bs =>
        rw [hr] at h
        simp at h
        subst h
        rw [List.zip_cons_cons] at hp
        rcases hp with _ | hp2
        · exact hfa
        · exact ih hr p (by assumption)

/-- Writing different values under one key gives different dicts. -/
theorem setKey_inj {o : List (String × JValue)} {k : String} {v w : JValue}
    (h : setKey o k v = setKey o k w) : v = w := by
  have h1 := getKey_setKey_self o k v
  rw [h] at h1
  rw [getKey_setKey_self] at h1
  simpa using h1.symm

/-- C6, counterexample.  With two ethernet-named records sharing one
name, the second deep copy overwrites the first in the name-keyed result
dict: the output holds a single record, derived from the second original
record, so the first ethernet record is not kept, contradicting the
claim that any ethernet-named record is kept. -/
theorem cf_duplicate_ethernet_overwrites :
    remove_interfaces_cf []
        (.jobj [("interface", .jarr
          [.jobj [("name", .jstr "ethernet-1"), ("mtu", .jint 1500)],
           .jobj [("name", .jstr "ethernet-1"), ("mtu", .jint 9000)]])]) =
      some (.jobj [("interface", .jarr
        [.jobj [("name", .jstr "ethernet-1"), ("mtu", .jint 9000),
                ("subinterface", .jarr [])]])]) ∧
    (JValue.jobj [("name", .jstr "ethernet-1"), ("mtu", .jint 9000),
                  ("subinterface", .jarr [])]) ≠
      (JValue.jobj [("name", .jstr "ethernet-1"), ("mtu", .jint 1500),
                    ("subinterface", .jarr [])]) := by
  refine ⟨rfl, ?_⟩
  simp

/-- C6 (amended).  For every document (duplicate names allowed) the
consolidating mode emits at most one record per distinct interface name,
each output record carries its dict key as name, and the output order is
the first-encounter order of the producing entries during the scan of
the original list, not the in-use order.  When the original records have
pairwise-distinct names, every ethernet-named record is kept as a deep
copy with its subinterface list reset and only the unit-matching
subinterfaces of the matching in-use references appended; with duplicate
ethernet names only the last record of that name survives. -/
theorem cf_consolidation_properties (refs : List Interface)
    (o : List (String × JValue)) (entries : List JValue) (ns : List String)
    (doc' : JValue)
    (hif : getKey o "interface" = some (.jarr entries))
    (hns : optMapM entryName entries = some ns)
    (hrun : remove_interfaces_cf refs (.jobj o) = some doc') :
    ∃ out,
      getField doc' "interface" = some (.jarr out) ∧
      optMapM entryName out =
        some ((ns.filter (producesRec refs)).foldl dedupIns []) ∧
      ((ns.filter (producesRec refs)).foldl dedupIns []).Nodup ∧
      (ns.Nodup → ∀ p ∈ entries.zip ns, strHas p.2 "ethernet" = true →
        ∃ eo blocks, asObj p.1 = some eo ∧
          optMapM (entryRefBlock p.1) (matchingRefs refs p.2) = some blocks ∧
          (JValue.jobj (setKey eo "subinterface" (.jarr blocks.flatten))) ∈ out) := by
  have hrun0 := hrun
  have e : remove_interfaces_cf refs (.jobj o) =
      (getKey o "interface").bind fun iv =>
        (asArr iv).bind fun entries =>
          (optFoldlM (cfEntryStep refs) ⟨[], none⟩ entries).map fun st =>
            .jobj (setKey o "interface" (.jarr (st.result.map Prod.snd))) := rfl
  rw [e, hif] at hrun
  dsimp only [Option.bind, asArr] at hrun
  cases hst : optFoldlM (cfEntryStep refs) ⟨[], none⟩ entries with
  | none =>
    rw [hst] at hrun
    exact absurd hrun (by simp)
  | some stF =>
    rw [hst] at hrun
    simp at hrun
    obtain ⟨hinvF, hkeys⟩ := cfFold_keys hns hst
      (fun kv hkv => absurd hkv (List.not_mem_nil _))
    dsimp only at hkeys
    simp only [List.map_nil] at hkeys
    refine ⟨stF.result.map Prod.snd, ?_, ?_, ?_, ?_⟩
    · rw [← hrun]
      unfold getField
      dsimp only [asObj, Option.bind]
      rw [getKey_setKey_self]
    · rw [result_names hinvF, hkeys]
    · exact foldl_dedupIns_nodup _ List.nodup_nil
    · intro hnodup p hp heth
      have hrun2 := hrun0
      rw [remove_interfaces_cf_characterization refs o entries ns hif hns
        hnodup] at hrun2
      cases hspec : cfSpec refs entries with
      | none =>
        rw [hspec] at hrun2
        exact absurd hrun2 (by simp)
      | some out0 =>
        rw [hspec] at hrun2
        simp at hrun2
        have hsame : out0 = stF.result.map Prod.snd := by
          have h2 : JValue.jobj (setKey o "interface" (.jarr out0)) =
              JValue.jobj (setKey o "interface"
                (.jarr (stF.result.map Prod.snd))) := by
            rw [hrun2, ← hrun]
          have h3 := setKey_inj ((JValue.jobj.injEq _ _).mp h2)
          simpa using h3
        unfold cfSpec at hspec
        cases hl : optMapM (cfEntrySpec refs) entries with
        | none =>
          rw [hl] at hspec
          exact absurd hspec (by simp)
        | some l =>
          rw [hl] at hspec
          simp at hspec
          have hen : entryName p.1 = some p.2 := optMapM_zip hns p hp
          have hprod : producesRec refs p.2 = true := by
            simp [producesRec, heth]
          obtain ⟨orec, horecmem, horec⟩ :=
            optMapM_mem_of_mem hl (List.of_mem_zip hp).1
          unfold cfEntrySpec at horec
          rw [hen] at horec
          dsimp only [Option.bind] at horec
          rw [if_pos hprod] at horec
          cases hrec : cfRecordM p.1 (matchingRefs refs p.2) with
          | none =>
            rw [hrec] at horec
            exact absurd horec (by simp)
          | some rec =>
            rw [hrec] at horec
            simp at horec
            unfold cfRecordM at hrec
            cases hblocks : optMapM (entryRefBlock p.1)
                (matchingRefs refs p.2) with
            | none =>
              rw [hblocks] at hrec
              exact absurd hrec (by simp)
            | some blocks =>
              rw [hblocks] at hrec
              dsimp only [Option.bind] at hrec
              unfold setSubifs at hrec
              cases heo : asObj p.1 with
              | none =>
                rw [heo] at hrec
                exact absurd hrec (by simp)
              | some eo =>
                rw [heo] at hrec
                simp at hrec
                refine ⟨eo, blocks, rfl, rfl, ?_⟩
                rw [← hsame, ← hspec]
                rw [List.mem_filterMap]
                refine ⟨orec, horecmem, ?_⟩
                rw [← horec, hrec]
                rfl

/-- First interface record of the consolidation witness. -/
def c6wE1 : JValue :=
  .jobj [("name", .jstr "ethernet-1/1"), ("subinterface", .jarr [])]

/-- Second interface record of the consolidation witness. -/
def c6wE2 : JValue :=
  .jobj [("name", .jstr "irb0"),
         ("subinterface", .jarr [.jobj [("index", .jint 1)]])]

/-- Document object of the consolidation witness. -/
def c6wO : List (String × JValue) := [("interface", .jarr [c6wE1, c6wE2])]

/-- C6 witness: the consolidation properties applied to a document with
one ethernet record and one referenced irb record. -/
theorem cf_consolidation_properties_witness :
    ∃ out,
      getField (.jobj c6wO) "interface" = some (.jarr out) ∧
      optMapM entryName out =
        some (((["ethernet-1/1", "irb0"].filter
          (producesRec [⟨"irb0", 1⟩])).foldl dedupIns [])) ∧
      (((["ethernet-1/1", "irb0"].filter
          (producesRec [⟨"irb0", 1⟩])).foldl dedupIns [])).Nodup ∧
      ((["ethernet-1/1", "irb0"] : List String).Nodup →
        ∀ p ∈ [c6wE1, c6wE2].zip ["ethernet-1/1", "irb0"],
          strHas p.2 "ethernet" = true →
          ∃ eo blocks, asObj p.1 = some eo ∧
            optMapM (entryRefBlock p.1)
              (matchingRefs [⟨"irb0", 1⟩] p.2) = some blocks ∧
            (JValue.jobj (setKey eo "subinterface" (.jarr blocks.flatten))) ∈ out) :=
  cf_consolidation_properties [⟨"irb0", 1⟩] c6wO [c6wE1, c6wE2]
    ["ethernet-1/1", "irb0"] (.jobj c6wO) rfl rfl rfl

/-! ## Claim C8: frame property of the whole pipeline -/

/-- Success shape of drop_nis: the document is an object whose
network-instance key existed and is overwritten in place. -/
theorem drop_nis_shape {keep : List String} {d e : JValue}
    (h : drop_nis keep d = some e) :
    ∃ o w v, d = .jobj o ∧ getKey o "network-instance" = some w ∧
      e = .jobj (setKey o "network-instance" v) := by
  unfold drop_nis at h
  cases d with
  | jobj o =>
    dsimp only [asObj, Option.bind] at h
    cases hni : getKey o "network-instance" with
    | none => rw [hni] at h; exact absurd h (by simp)
    | some w =>
      rw [hni] at h
      dsimp only [Option.bind] at h
      cases hw : asArr w with
      | none => rw [hw] at h; exact absurd h (by simp)
      | some entries =>
        rw [hw] at h
        dsimp only [Option.bind] at h
        cases hb : optMapM (dropNisEntry keep) entries with
        | none => rw [hb] at h; exact absurd h (by simp)
        | some blocks =>
          rw [hb] at h
          simp at h
          exact ⟨o, w, .jarr blocks.flatten, rfl, hni, h.symm⟩
  | jnull => exact absurd h (by simp [asObj])
  | jbool b => exact absurd h (by simp [asObj])
  | jint n => exact absurd h (by simp [asObj])
  | jstr s => exact absurd h (by simp [asObj])
  | jarr xs => exact absurd h (by simp [asObj])

/-- Success shape of remove_bfd: the bfd object existed, its subinterface
key existed, and both are overwritten in place. -/
theorem remove_bfd_shape {irbs : List Interface} {d e : JValue}
    (h : remove_bfd irbs d = some e) :
    ∃ o bo w bv, d = .jobj o ∧ getKey o "bfd" = some (.jobj bo) ∧
      getKey bo "subinterface" = some w ∧
      e = .jobj (setKey o "bfd" (.jobj (setKey bo "subinterface" bv))) := by
  unfold remove_bfd at h
  cases d with
  | jobj o =>
    dsimp only [asObj, Option.bind] at h
    cases hb : getKey o "bfd" with
    | none => rw [hb] at h; exact absurd h (by simp)
    | some bfdv =>
      rw [hb] at h
      dsimp only [Option.bind] at h
      cases bfdv with
      | jobj bo =>
        dsimp only [asObj, Option.bind] at h
        cases hs : getKey bo "subinterface" with
        | none => rw [hs] at h; exact absurd h (by simp)
        | some sv =>
          rw [hs] at h
          dsimp only [Option.bind] at h
          cases hsv : asArr sv with
          | none => rw [hsv] at h; exact absurd h (by simp)
          | some entries =>
            rw [hsv] at h
            dsimp only [Option.bind] at h
            cases hm : optMapM (bfdEntryMatches irbs) entries with
            | none => rw [hm] at h; exact absurd h (by simp)
            | some blocks =>
              rw [hm] at h
              simp at h
              exact ⟨o, bo, sv, .jarr blocks.flatten, rfl, hb, hs, h.symm⟩
      | jnull => exact absurd h (by simp [asObj])
      | jbool b => exact absurd h (by simp [asObj])
      | jint n => exact absurd h (by simp [asObj])
      | jstr s => exact absurd h (by simp [asObj])
      | jarr xs => exact absurd h (by simp [asObj])
  | jnull => exact absurd h (by simp [asObj])
  | jbool b => exact absurd h (by simp [asObj])
  | jint n => exact absurd h (by simp [asObj])
  | jstr s => exact absurd h (by simp [asObj])
  | jarr xs => exact absurd h (by simp [asObj])

/-- Success shape of the consolidating interface pruning. -/
theorem remove_interfaces_cf_shape {refs : List Interface} {d e : JValue}
    (h : remove_interfaces_cf refs d = some e) :
    ∃ o w v, d = .jobj o ∧ getKey o "interface" = some w ∧
      e = .jobj (setKey o "interface" v) := by
  unfold remove_interfaces_cf at h
  cases d with
  | jobj o =>
    dsimp only [asObj, Option.bind] at h
    cases hi : getKey o "interface" with
    | none => rw [hi] at h; exact absurd h (by simp)
    | some w =>
      rw [hi] at h
      dsimp only [Option.bind] at h
      cases hw : asArr w with
      | none => rw [hw] at h; exact absurd h (by simp)
      | some entries =>
        rw [hw] at h
        dsimp only [Option.bind] at h
        cases hf : optFoldlM (cfEntryStep refs) ⟨[], none⟩ entries with
        | none => rw [hf] at h; exact absurd h (by simp)
        | some stF =>
          rw [hf] at h
          simp at h
          exact ⟨o, w, .jarr (stF.result.map Prod.snd), rfl, hi, h.symm⟩
  | jnull => exact absurd h (by simp [asObj])
  | jbool b => exact absurd h (by simp [asObj])
  | jint n => exact absurd h (by simp [asObj])
  | jstr s => exact absurd h (by simp [asObj])
  | jarr xs => exact absurd h (by simp [asObj])

/-- Success shape of the strict interface pruning. -/
theorem remove_interfaces_main_shape {refs : List Interface} {d e : JValue}
    (h : remove_interfaces_main refs d = some e) :
    ∃ o w v, d = .jobj o ∧ getKey o "interface" = some w ∧
      e = .jobj (setKey o "interface" v) := by
  unfold remove_interfaces_main at h
  cases d with
  | jobj o =>
    dsimp only [asObj, Option.bind] at h
    cases hi : getKey o "interface" with
    | none => rw [hi] at h; exact absurd h (by simp)
    | some w =>
      rw [hi] at h
      dsimp only [Option.bind] at h
      cases hw : asArr w with
      | none => rw [hw] at h; exact absurd h (by simp)
      | some entries =>
        rw [hw] at h
        dsimp only [Option.bind] at h
        cases hf : optFoldlM (strictStep entries) [] refs with
        | none => rw [hf] at h; exact absurd h (by simp)
        | some recs =>
          rw [hf] at h
          simp at h
          exact ⟨o, w, .jarr recs, rfl, hi, h.symm⟩
  | jnull => exact absurd h (by simp [asObj])
  | jbool b => exact absurd h (by simp [asObj])
  | jint n => exact absurd h (by simp [asObj])
  | jstr s => exact absurd h (by simp [asObj])
  | jarr xs => exact absurd h (by simp [asObj])

/-- The frame of the pipeline: every top-level key other than the three
rewritten ones, the top-level key sequence, and inside bfd every key
other than subinterface together with the bfd key sequence, are
unchanged. -/
def FrameOK (d e : JValue) : Prop :=
  ∃ o o', d = .jobj o ∧ e = .jobj o' ∧
    o'.map Prod.fst = o.map Prod.fst ∧
    (∀ k, k ≠ "network-instance" → k ≠ "interface" → k ≠ "bfd" →
      getKey o' k = getKey o k) ∧
    ∃ bo bo', getKey o "bfd" = some (.jobj bo) ∧
      getKey o' "bfd" = some (.jobj bo') ∧
      bo'.map Prod.fst = bo.map Prod.fst ∧
      ∀ k, k ≠ "subinterface" → getKey bo' k = getKey bo k

/-- Frame argument shared by both pipelines, stated over the three
document rewrites each pipeline performs. -/
theorem frame_of_stages {d d1 d2 e : JValue}
    (s1 : ∃ o w v, d = .jobj o ∧ getKey o "network-instance" = some w ∧
      d1 = .jobj (setKey o "network-instance" v))
    (s2 : ∃ o bo w bv, d1 = .jobj o ∧ getKey o "bfd" = some (.jobj bo) ∧
      getKey bo "subinterface" = some w ∧
      d2 = .jobj (setKey o "bfd" (.jobj (setKey bo "subinterface" bv))))
    (s3 : ∃ o w v, d2 = .jobj o ∧ getKey o "interface" = some w ∧
      e = .jobj (setKey o "interface" v)) :
    FrameOK d e := by
  obtain ⟨o, w1, v1, rfl, hni, h1⟩ := s1
  obtain ⟨o1, bo, w2, bv, hd1, hbfd, hsub, h2⟩ := s2
  obtain ⟨o2, w3, v3, hd2, hintf, h3⟩ := s3
  rw [h1] at hd1
  have ho1 : o1 = setKey o "network-instance" v1 := by
    simpa using hd1.symm
  subst ho1
  rw [h2] at hd2
  have ho2 : o2 = setKey (setKey o "network-instance" v1) "bfd"
      (.jobj (setKey bo "subinterface" bv)) := by
    simpa using hd2.symm
  subst ho2
  refine ⟨o, _, rfl, h3, ?_, ?_, ?_⟩
  · rw [map_fst_setKey hintf, map_fst_setKey hbfd, map_fst_setKey hni]
  · intro k hk1 hk2 hk3
    rw [getKey_setKey_ne _ _ (Ne.symm hk2), getKey_setKey_ne _ _ (Ne.symm hk3),
      getKey_setKey_ne _ _ (Ne.symm hk1)]
  · refine ⟨bo, setKey bo "subinterface" bv, ?_, ?_, ?_, ?_⟩
    · rw [← hbfd, getKey_setKey_ne _ _ (by decide)]
    · rw [getKey_setKey_ne _ _ (by decide), getKey_setKey_self]
    · exact map_fst_setKey hsub _
    · intro k hk
      exact getKey_setKey_ne _ _ (Ne.symm hk)

/-- C8.  In both pipelines, every top-level key other than
network-instance, interface and bfd keeps its value and position, and
inside bfd every key other than subinterface keeps its value and
position. -/
theorem pipeline_frame (d d' e e' : JValue)
    (h1 : pipeline_cf d = some e) (h2 : pipeline_main d' = some e') :
    FrameOK d e ∧ FrameOK d' e' := by
  constructor
  · unfold pipeline_cf at h1
    cases hd1 : drop_nis keep_nis_cf d with
    | none => rw [hd1] at h1; exact absurd h1 (by simp)
    | some d1 =>
      rw [hd1] at h1
      dsimp only [Option.bind] at h1
      cases hrefs : deduce_cf d1 with
      | none => rw [hrefs] at h1; exact absurd h1 (by simp)
      | some refs =>
        rw [hrefs] at h1
        dsimp only [Option.bind] at h1
        cases hd2 : remove_bfd refs d1 with
        | none => rw [hd2] at h1; exact absurd h1 (by simp)
        | some d2 =>
          rw [hd2] at h1
          dsimp only [Option.bind] at h1
          exact frame_of_stages (drop_nis_shape hd1) (remove_bfd_shape hd2)
            (remove_interfaces_cf_shape h1)
  · unfold pipeline_main at h2
    cases hd1 : drop_nis keep_nis_main d' with
    | none => rw [hd1] at h2; exact absurd h2 (by simp)
    | some d1 =>
      rw [hd1] at h2
      dsimp only [Option.bind] at h2
      cases hrefs : deduce_main d1 with
      | none => rw [hrefs] at h2; exact absurd h2 (by simp)
      | some refs =>
        rw [hrefs] at h2
        dsimp only [Option.bind] at h2
        cases hd2 : remove_bfd refs d1 with
        | none => rw [hd2] at h2; exact absurd h2 (by simp)
        | some d2 =>
          rw [hd2] at h2
          dsimp only [Option.bind] at h2
          exact frame_of_stages (drop_nis_shape hd1) (remove_bfd_shape hd2)
            (remove_interfaces_main_shape h2)

/-- Document used by the frame witness, carrying untouched keys at both
levels. -/
def c8wDoc : JValue :=
  .jobj [("network-instance", .jarr [.jobj [("name", .jstr "infrastructure"),
           ("interface", .jarr [.jobj [("name", .jstr "irb0.1")]])]]),
         ("interface", .jarr [.jobj [("name", .jstr "irb0"),
           ("subinterface", .jarr [.jobj [("index", .jint 1)]])]]),
         ("bfd", .jobj [("subinterface", .jarr [.jobj [("id", .jstr "irb0.1")]]),
           ("extra", .jint 3)]),
         ("other", .jstr "keep")]

/-- C8 witness: the frame property applied to a concrete document on
which both pipelines succeed. -/
theorem pipeline_frame_witness :
    ∃ e e', pipeline_cf c8wDoc = some e ∧ pipeline_main c8wDoc = some e' ∧
      FrameOK c8wDoc e ∧ FrameOK c8wDoc e' :=
  ⟨_, _, rfl, rfl,
   (pipeline_frame c8wDoc c8wDoc _ _ rfl rfl).1,
   (pipeline_frame c8wDoc c8wDoc _ _ rfl rfl).2⟩

/-! ## Claim C4: idempotence on already-filtered documents

The second run of the consolidating pipeline reproduces its input when
the once-filtered document satisfies three conditions, each forced by a
counterexample otherwise: every retained network-instance name contains
exactly one keep substring, the deduced references have pairwise-distinct
canonical representations, and the original top-level interface records
carry pairwise-distinct names. -/

/-- A value can be Python-equal to at most one integer. -/
theorem pyEqInt_fn {v : JValue} {a b : Int} (ha : pyEqInt v a = true)
    (hb : pyEqInt v b = true) : a = b := by
  cases v with
  | jint m =>
    simp [pyEqInt] at ha hb
    omega
  | jbool bb =>
    cases bb <;> simp [pyEqInt] at ha hb <;> omega
  | jnull => simp [pyEqInt] at ha
  | jstr s => simp [pyEqInt] at ha
  | jarr xs => simp [pyEqInt] at ha
  | jobj obj => simp [pyEqInt] at ha

theorem optMapM_congr {f g : α → Option β} {l : List α}
    (h : ∀ a ∈ l, f a = g a) : optMapM f l = optMapM g l := by
  induction l with
  | nil => rfl
  | cons a rest ih =>
    rw [optMapM_cons, optMapM_cons, h a (List.mem_cons_self _ _),
      ih (fun x hx => h x (List.mem_cons_of_mem _ hx))]

theorem optMapM_of_all {f : α → Option β} {g : α → β} {l : List α}
    (h : ∀ a ∈ l, f a = some (g a)) : optMapM f l = some (l.map g) := by
  induction l with
  | nil => rfl
  | cons a rest ih =>
    rw [optMapM_cons, h a (List.mem_cons_self _ _),
      ih (fun x hx => h x (List.mem_cons_of_mem _ hx))]
    rfl

theorem filterMap_id_map_some (l : List α) :
    (l.map some).filterMap id = l := by
  induction l with
  | nil => rfl
  | cons a rest ih => simp [ih]

theorem flatten_map_singleton (l : List α) :
    (l.map (fun a => [a])).flatten = l := by
  induction l with
  | nil => rfl
  | cons a rest ih => simp [ih]

theorem filtIdx_cons (u : Int) (s : JValue) (rest : List JValue) :
    filtIdx u (s :: rest) = (getField s "index").bind fun iv =>
      (filtIdx u rest).map fun tail =>
        if pyEqInt iv u then s :: tail else tail := rfl

/-- filtIdx distributes over append. -/
theorem filtIdx_append (u : Int) (a b : List JValue) :
    filtIdx u (a ++ b) = (filtIdx u a).bind fun ka =>
      (filtIdx u b).map fun kb => ka ++ kb := by
  induction a with
  | nil =>
    simp only [List.nil_append]
    rw [show filtIdx u [] = some [] from rfl]
    cases filtIdx u b <;> simp
  | cons s rest ih =>
    rw [List.cons_append, filtIdx_cons, filtIdx_cons]
    cases hn : getField s "index" with
    | none => rfl
    | some iv =>
      dsimp only [Option.bind]
      rw [ih]
      cases filtIdx u rest with
      | none => rfl
      | some ka =>
        dsimp only [Option.bind, Option.map]
        cases filtIdx u b with
        | none => rfl
        | some kb =>
          dsimp only [Option.map]
          by_cases hm : pyEqInt iv u <;> simp [hm]

/-- filtIdx keeps everything when every element matches the unit. -/
theorem filtIdx_all_keep {u : Int} {L : List JValue}
    (h : ∀ x ∈ L, ∃ iv, getField x "index" = some iv ∧ pyEqInt iv u = true) :
    filtIdx u L = some L := by
  induction L with
  | nil => rfl
  | cons s rest ih =>
    obtain ⟨iv, hiv, hm⟩ := h s (List.mem_cons_self _ _)
    rw [filtIdx_cons, hiv]
    dsimp only [Option.bind]
    rw [ih (fun x hx => h x (List.mem_cons_of_mem _ hx))]
    simp [hm]

/-- filtIdx drops everything when no element matches the unit. -/
theorem filtIdx_all_drop {u : Int} {L : List JValue}
    (h : ∀ x ∈ L, ∃ iv, getField x "index" = some iv ∧ pyEqInt iv u = false) :
    filtIdx u L = some [] := by
  induction L with
  | nil => rfl
  | cons s rest ih =>
    obtain ⟨iv, hiv, hm⟩ := h s (List.mem_cons_self _ _)
    rw [filtIdx_cons, hiv]
    dsimp only [Option.bind]
    rw [ih (fun x hx => h x (List.mem_cons_of_mem _ hx))]
    simp [hm]

/-- Elements of a filtIdx result all match the unit. -/
theorem filtIdx_block_all {w : Int} {sl B : List JValue}
    (h : filtIdx w sl = some B) :
    ∀ x ∈ B, ∃ iv, getField x "index" = some iv ∧ pyEqInt iv w = true :=
  fun x hx => (filtIdx_mem h hx).2

theorem matchingRefs_names (refs : List Interface) (n : String) :
    ∀ r ∈ matchingRefs refs n, r.interface_name = n := by
  intro r hr
  have h2 := (List.mem_filter.mp hr).2
  simp at h2
  exact h2.symm

theorem matchingRefs_reps_nodup {refs : List Interface}
    (h : (refs.map config_rep).Nodup) (n : String) :
    ((matchingRefs refs n).map config_rep).Nodup :=
  List.Nodup.sublist (List.Sublist.map _ (List.filter_sublist _)) h

/-- Units of matching references with one shared name are pairwise
distinct when the canonical representations are. -/
theorem units_nodup {mrefs : List Interface} {n : String}
    (hreps : (mrefs.map config_rep).Nodup)
    (hnames : ∀ r ∈ mrefs, r.interface_name = n) :
    (mrefs.map Interface.unit).Nodup := by
  induction mrefs with
  | nil => simp
  | cons r rest ih =>
    simp only [List.map_cons, List.nodup_cons] at hreps ⊢
    obtain ⟨hrep, hrest⟩ := hreps
    refine ⟨?_, ih hrest (fun x hx => hnames x (List.mem_cons_of_mem _ hx))⟩
    intro hu
    obtain ⟨r', hr', hu'⟩ := List.mem_map.mp hu
    have heq : r' = r := by
      have h1 : r'.interface_name = r.interface_name := by
        rw [hnames r' (List.mem_cons_of_mem _ hr'),
          hnames r (List.mem_cons_self _ _)]
      obtain ⟨n1, u1⟩ := r
      obtain ⟨n2, u2⟩ := r'
      simp only [Interface.mk.injEq]
      dsimp only at h1 hu'
      exact ⟨h1, hu'⟩
    exact hrep (heq ▸ List.mem_map_of_mem config_rep hr')

/-- Refiltering the flattened blocks of one entry reproduces the blocks
when the units are pairwise distinct. -/
theorem refilter_blocks {sl : List JValue} (mrefs : List Interface)
    {blocks : List (List JValue)}
    (hnd : (mrefs.map Interface.unit).Nodup)
    (hblocks : optMapM (fun r => filtIdx r.unit sl) mrefs = some blocks) :
    optMapM (fun r => filtIdx r.unit blocks.flatten) mrefs = some blocks := by
  induction mrefs generalizing blocks with
  | nil =>
    simp at hblocks
    subst hblocks
    rfl
  | cons r rest ih =>
    rw [optMapM_cons] at hblocks
    cases hB : filtIdx r.unit sl with
    | none => simp [hB] at hblocks
    | some B =>
      rw [hB] at hblocks
      cases hrest : optMapM (fun r => filtIdx r.unit sl) rest with
      | none => simp [hrest] at hblocks
      | some brest =>
        rw [hrest] at hblocks
        simp at hblocks
        subst hblocks
        simp only [List.map_cons, List.nodup_cons] at hnd
        obtain ⟨hru, hndrest⟩ := hnd
        have hBall := filtIdx_block_all hB
        have hflat : ∀ x ∈ brest.flatten, ∃ iv,
            getField x "index" = some iv ∧ pyEqInt iv r.unit = false := by
          intro x hx
          obtain ⟨B', hB', hxB'⟩ := List.mem_flatten.mp hx
          obtain ⟨r', hr', hfr'⟩ := optMapM_mem hrest hB'
          obtain ⟨iv, hiv, hm⟩ := filtIdx_block_all hfr' x hxB'
          refine ⟨iv, hiv, ?_⟩
          by_contra hc
          simp only [Bool.not_eq_false] at hc
          exact hru (pyEqInt_fn hm hc ▸ List.mem_map_of_mem Interface.unit hr')
        rw [optMapM_cons]
        have hhead : filtIdx r.unit ((B :: brest).flatten) = some B := by
          rw [List.flatten_cons, filtIdx_append, filtIdx_all_keep hBall,
            filtIdx_all_drop hflat]
          simp
        rw [hhead]
        dsimp only [Option.bind]
        have htail : optMapM (fun r' => filtIdx r'.unit ((B :: brest).flatten))
            rest = some brest := by
          have hcongr : ∀ r' ∈ rest,
              filtIdx r'.unit ((B :: brest).flatten)
                = filtIdx r'.unit brest.flatten := by
            intro r' hr'
            have hne : r'.unit ≠ r.unit := by
              intro he
              exact hru (he ▸ List.mem_map_of_mem Interface.unit hr')
            have hdropB : filtIdx r'.unit B = some [] := by
              refine filtIdx_all_drop (fun x hx => ?_)
              obtain ⟨iv, hiv, hm⟩ := hBall x hx
              refine ⟨iv, hiv, ?_⟩
              by_contra hc
              simp only [Bool.not_eq_false] at hc
              exact hne (pyEqInt_fn hc hm)
            rw [List.flatten_cons, filtIdx_append, hdropB]
            dsimp only [Option.bind]
            cases filtIdx r'.unit brest.flatten <;> simp
          rw [optMapM_congr hcongr]
          exact ih hndrest hrest
        rw [htail]
        rfl

/-- A record emitted by the consolidating pass is a fixpoint of the
per-entry specification when the canonical representations of the
in-use references are pairwise distinct. -/
theorem cfEntrySpec_fixpoint {refs : List Interface} {E R : JValue}
    (hreps : (refs.map config_rep).Nodup)
    (h : cfEntrySpec refs E = some (some R)) :
    cfEntrySpec refs R = some (some R) ∧ entryName R = entryName E := by
  unfold cfEntrySpec at h
  cases hen : entryName E with
  | none =>
    rw [hen] at h
    exact absurd h (by simp)
  | some n =>
    rw [hen] at h
    dsimp only [Option.bind] at h
    by_cases hprod : producesRec refs n = true
    · rw [if_pos hprod] at h
      cases hrec : cfRecordM E (matchingRefs refs n) with
      | none =>
        rw [hrec] at h
        exact absurd h (by simp)
      | some R0 =>
        rw [hrec] at h
        have hR0 : R0 = R := by simpa using h
        rw [hR0] at hrec
        unfold cfRecordM at hrec
        cases hblocks : optMapM (entryRefBlock E) (matchingRefs refs n) with
        | none =>
          rw [hblocks] at hrec
          exact absurd hrec (by simp)
        | some blocks =>
          rw [hblocks] at hrec
          dsimp only [Option.bind] at hrec
          unfold setSubifs at hrec
          cases heo : asObj E with
          | none =>
            rw [heo] at hrec
            exact absurd hrec (by simp)
          | some eo =>
            rw [heo] at hrec
            simp at hrec
            have hEobj : E = .jobj eo := by
              cases E <;> simp [asObj] at heo
              rw [heo]
            have hnameEo : getKey eo "name" = some (.jstr n) := by
              have := entryName_decompose hen
              rw [hEobj] at this
              unfold getField at this
              dsimp only [asObj, Option.bind] at this
              exact this
            have hRname : entryName R = some n := by
              rw [← hrec]
              unfold entryName getField
              dsimp only [asObj, Option.bind]
              rw [getKey_setKey_ne _ _ (by decide), hnameEo]
              rfl
            have hRsub : getField R "subinterface" =
                some (.jarr blocks.flatten) := by
              rw [← hrec]
              unfold getField
              dsimp only [asObj, Option.bind]
              rw [getKey_setKey_self]
            refine ⟨?_, hRname⟩
            unfold cfEntrySpec
            rw [hRname]
            dsimp only [Option.bind]
            rw [if_pos hprod]
            have hRblocks : optMapM (entryRefBlock R) (matchingRefs refs n) =
                some blocks := by
              have hcongr : ∀ r ∈ matchingRefs refs n,
                  entryRefBlock R r = filtIdx r.unit blocks.flatten := by
                intro r hr
                unfold entryRefBlock
                rw [hRsub]
                rfl
              rw [optMapM_congr hcongr]
              cases hmr : matchingRefs refs n with
              | nil =>
                rw [hmr] at hblocks
                simp at hblocks
                subst hblocks
                rfl
              | cons r0 mrest =>
                rw [hmr] at hblocks
                rw [optMapM_cons] at hblocks
                cases hB0 : entryRefBlock E r0 with
                | none => simp [hB0] at hblocks
                | some B0 =>
                  rw [hB0] at hblocks
                  have hB0' := hB0
                  unfold entryRefBlock at hB0'
                  cases hsv : getField E "subinterface" with
                  | none =>
                    rw [hsv] at hB0'
                    exact absurd hB0' (by simp)
                  | some sv =>
                    rw [hsv] at hB0'
                    dsimp only [Option.bind] at hB0'
                    cases hsl : asArr sv with
                    | none =>
                      rw [hsl] at hB0'
                      exact absurd hB0' (by simp)
                    | some sl =>
                      rw [hsl] at hB0'
                      dsimp only [Option.bind] at hB0'
                      have hfun : entryRefBlock E =
                          fun r => filtIdx r.unit sl := by
                        funext r
                        unfold entryRefBlock
                        rw [hsv]
                        dsimp only [Option.bind]
                        rw [hsl]
                      have hunits : ((matchingRefs refs n).map
                          Interface.unit).Nodup :=
                        units_nodup (matchingRefs_reps_nodup hreps n)
                          (matchingRefs_names refs n)
                      rw [hmr] at hunits
                      have hall : optMapM (fun r => filtIdx r.unit sl)
                          (r0 :: mrest) = some blocks := by
                        rw [hfun] at hblocks
                        rw [optMapM_cons]
                        rw [hB0']
                        exact hblocks
                      exact refilter_blocks (r0 :: mrest) hunits hall
            unfold cfRecordM
            rw [hRblocks]
            dsimp only [Option.bind]
            unfold setSubifs
            rw [← hrec]
            dsimp only [asObj]
            show some (some (JValue.jobj (setKey (setKey eo "subinterface"
              (JValue.jarr blocks.flatten)) "subinterface"
              (JValue.jarr blocks.flatten)))) = _
            rw [setKey_setKey]
    · rw [if_neg hprod] at h
      exact absurd h (by simp)


/-- Zipping a list with per-element counts that are all one and
replicating accordingly reproduces the list. -/
theorem zip_flatMap_single {β : Type} (cnt : β → Nat) (xs : List α)
    (ys : List β) (hlen : xs.length = ys.length)
    (hone : ∀ y ∈ ys, cnt y = 1) :
    ((xs.zip ys).flatMap fun p => List.replicate (cnt p.2) p.1) = xs := by
  induction xs generalizing ys with
  | nil =>
    cases ys with
    | nil => rfl
    | cons y ys => simp at hlen
  | cons x xs ih =>
    cases ys with
    | nil => simp at hlen
    | cons y ys =>
      rw [List.zip_cons_cons, List.flatMap_cons,
        hone y (List.mem_cons_self _ _),
        ih ys (by simpa using hlen)
          (fun z hz => hone z (List.mem_cons_of_mem _ hz))]
      rfl

/-- A network instance of the idempotence counterexample: its name holds
both keep substrings. -/
def c4ni : JValue :=
  .jobj [("name", .jstr "default-infrastructure"), ("interface", .jarr [])]

/-- The counterexample document with one such network instance. -/
def c4doc : JValue :=
  .jobj [("network-instance", .jarr [c4ni]),
         ("bfd", .jobj [("subinterface", .jarr [])]),
         ("interface", .jarr [])]

/-- The same document with the network instance doubled. -/
def c4doc2 : JValue :=
  .jobj [("network-instance", .jarr [c4ni, c4ni]),
         ("bfd", .jobj [("subinterface", .jarr [])]),
         ("interface", .jarr [])]

/-- The same document with the network instance quadrupled. -/
def c4doc4 : JValue :=
  .jobj [("network-instance", .jarr [c4ni, c4ni, c4ni, c4ni]),
         ("bfd", .jobj [("subinterface", .jarr [])]),
         ("interface", .jarr [])]

/-- C4 counterexample.  The pipeline is not idempotent on its own
outputs: a network instance named default-infrastructure holds both keep
substrings, so the missing break duplicates it on every run.  The first
run maps the one-instance document to the two-instance document, and a
second run on that output yields four instances rather than reproducing
it. -/
theorem pipeline_cf_not_idempotent :
    pipeline_cf c4doc = some c4doc2 ∧
    pipeline_cf c4doc2 = some c4doc4 ∧
    c4doc4 ≠ c4doc2 := by
  refine ⟨rfl, rfl, ?_⟩
  simp [c4doc4, c4doc2]

/-- C4 (amended).  The pipeline is idempotent on an already-filtered
document under the conditions the counterexample violates: every
remaining network-instance name holds exactly one keep substring, the
deduced in-use interfaces have pairwise distinct canonical
representations, every BFD binding id matches exactly one in-use
interface, the interface records carry pairwise distinct names, and
every interface record is one the consolidating pass can emit.  Under
these conditions a second run returns the document unchanged. -/
theorem pipeline_cf_conditional_idempotent
    (d e : JValue) (o bo : List (String × JValue))
    (nis bents ients : List JValue) (nns ins : List String)
    (bids : List JValue) (refs : List Interface)
    (hrun : pipeline_cf d = some e)
    (he : e = .jobj o)
    (hni : getKey o "network-instance" = some (.jarr nis))
    (hnns : optMapM entryName nis = some nns)
    (hone : ∀ n ∈ nns, countMatches keep_nis_cf n = 1)
    (hrefs : deduce_cf e = some refs)
    (hreps : (refs.map config_rep).Nodup)
    (hbfd : getKey o "bfd" = some (.jobj bo))
    (hbsub : getKey bo "subinterface" = some (.jarr bents))
    (hbids : optMapM entryId bents = some bids)
    (hbone : ∀ idv ∈ bids, bfdCount refs idv = 1)
    (hif : getKey o "interface" = some (.jarr ients))
    (hins : optMapM entryName ients = some ins)
    (hinodup : ins.Nodup)
    (hemit : ∀ R ∈ ients, ∃ E, cfEntrySpec refs E = some (some R)) :
    pipeline_cf e = some e := by
  subst he
  have hA : drop_nis keep_nis_cf (.jobj o) = some (.jobj o) := by
    rw [drop_nis_characterization keep_nis_cf o nis nns hni hnns,
      zip_flatMap_single _ nis nns (optMapM_length hnns).symm hone,
      setKey_same hni]
  have hC : remove_bfd refs (.jobj o) = some (.jobj o) := by
    rcases remove_bfd_characterization refs o bo bents bids hbfd hbsub hbids
      with ⟨hmain, -⟩
    rw [hmain,
      zip_flatMap_single _ bents bids (optMapM_length hbids).symm hbone,
      setKey_same hbsub, setKey_same hbfd]
  have hD : remove_interfaces_cf refs (.jobj o) = some (.jobj o) := by
    rw [remove_interfaces_cf_characterization refs o ients ins hif hins
      hinodup]
    have hall : ∀ R ∈ ients, cfEntrySpec refs R = some (some R) := by
      intro R hR
      rcases hemit R hR with ⟨E, hE⟩
      exact (cfEntrySpec_fixpoint hreps hE).1
    have hspec : cfSpec refs ients = some ients := by
      unfold cfSpec
      rw [optMapM_of_all hall]
      show some ((ients.map some).filterMap id) = some ients
      rw [filterMap_id_map_some]
    rw [hspec]
    show some (JValue.jobj (setKey o "interface" (.jarr ients))) = _
    rw [setKey_same hif]
  unfold pipeline_cf
  rw [hA]
  dsimp only [Option.bind]
  rw [hrefs]
  dsimp only [Option.bind]
  rw [hC]
  dsimp only [Option.bind]
  exact hD

/-- Subinterface of the idempotence witness record. -/
def c4wSub : JValue := .jobj [("index", .jint 1)]

/-- Interface record of the idempotence witness. -/
def c4wRec : JValue :=
  .jobj [("name", .jstr "irb0"), ("subinterface", .jarr [c4wSub])]

/-- Network instance of the idempotence witness. -/
def c4wNi : JValue :=
  .jobj [("name", .jstr "infrastructure"),
         ("interface", .jarr [.jobj [("name", .jstr "irb0.1")]])]

/-- BFD binding of the idempotence witness. -/
def c4wBfdE : JValue := .jobj [("id", .jstr "irb0.1")]

/-- BFD object of the idempotence witness. -/
def c4wBo : List (String × JValue) := [("subinterface", .jarr [c4wBfdE])]

/-- Top-level object of the idempotence witness. -/
def c4wIO : List (String × JValue) :=
  [("network-instance", .jarr [c4wNi]),
   ("bfd", .jobj c4wBo),
   ("interface", .jarr [c4wRec])]

/-- The idempotence witness document, a fixpoint of the pipeline. -/
def c4wD : JValue := .jobj c4wIO

/-- C4 witness: a concrete already-filtered document satisfying every
side condition, on which a second run is the identity. -/
theorem pipeline_cf_conditional_idempotent_witness :
    (∀ n ∈ ["infrastructure"], countMatches keep_nis_cf n = 1) ∧
    pipeline_cf c4wD = some c4wD :=
  ⟨fun n h => by rw [List.mem_singleton] at h; subst h; rfl,
   pipeline_cf_conditional_idempotent c4wD c4wD c4wIO c4wBo
     [c4wNi] [c4wBfdE] [c4wRec] ["infrastructure"] ["irb0"]
     [.jstr "irb0.1"] [⟨"irb0", 1⟩]
     rfl rfl rfl rfl
     (fun n h => by rw [List.mem_singleton] at h; subst h; rfl)
     rfl (by decide) rfl rfl rfl
     (fun idv h => by rw [List.mem_singleton] at h; subst h; rfl)
     rfl rfl (by decide)
     (fun R h => by
       rw [List.mem_singleton] at h
       subst h
       exact ⟨c4wRec, rfl⟩)⟩

end Paco
